import Mathlib

/-!
# The assembler of `aveplen/sm`: `asm/compiler.go`

A shallow embedding of the text-to-word pipeline of the assembler (code-point
cursor, token cursor, classifier, single-pass compiler) and theorems about it.

Conventions of the embedding.

* A Go `rune` delivered by `bufio.Reader.ReadRune` is a Unicode scalar value,
  so it is a `Char`; an invalid encoding is delivered as `U+FFFD`.  The input
  stream is the list of code points that `ReadRune` delivers until it reports
  an error (end of input).
* A Go `string` built from such runes is the list of its code points
  (`List Char`); `len` of a string is its length in UTF-8 bytes.
* A `uint32` word is a `Nat`; the conversions `uint32(...)` are written with an
  explicit `% 4294967296`.
* A `panic` is the outcome `Result.panic`; the loops are bounded by a fuel
  argument and `Result.fuel` is the outcome of a loop that used it all up
  (shown below never to happen for the fuel the callers pass).
-/

namespace SM

/-! ## Outcomes -/

/-- The panics of `compiler.go`, one constructor per `panic` call, and the
run-time panic of an index or slice expression out of range. -/
inductive Err where
  | invalidCode
  | unknownFormat
  | unknownLexemType
  | unknownMnemonics
  | parseInt
  | overwriteLabel (raw : List Char)
  | unexistantLabel (raw : List Char)
  | outOfRange
  deriving DecidableEq

/-- Outcome of running a piece of the program: a returned value, a panic, or
the loop bound of the embedding reached. -/
inductive Result (α : Type) where
  | ok (a : α)
  | panic (e : Err)
  | fuel
  deriving DecidableEq

/-- Sequencing of outcomes: the first panic aborts. -/
def Result.bind {α β : Type} (x : Result α) (f : α → Result β) : Result β :=
  match x with
  | .ok a => f a
  | .panic e => .panic e
  | .fuel => .fuel

/-- The value of an outcome seen through a function. -/
def Result.map {α β : Type} (f : α → β) (x : Result α) : Result β :=
  x.bind (fun a => .ok (f a))

/-! ## Constants -/

/-- Go `_INSTRUCTION = iota + 1`. -/
def _INSTRUCTION : Nat := 1

/-- Go `_INTEGER`, the second constant of the `iota` block. -/
def _INTEGER : Nat := 2

/-- Go `_LABEL`, the third constant of the `iota` block. -/
def _LABEL : Nat := 3

/-- Go `_LABELREF`, the fourth constant of the `iota` block. -/
def _LABELREF : Nat := 4

/-- Go `breakpoints = []rune{'\n', ' '}`. -/
def breakpoints : List Char := ['\n', ' ']

/-- Go `unicode.ReplacementChar`, the code point `U+FFFD`. -/
def ReplacementChar : Char := Char.ofNat 0xFFFD

/-- The opcode constants of package `emu`, which `compiler.go` imports and
whose source is not part of the files at hand: they are a parameter of the
embedding.  One field per constant the compiler names. -/
structure Emu where
  NOP : Nat
  ADD : Nat
  SUB : Nat
  AND : Nat
  OR : Nat
  XOR : Nat
  NOT : Nat
  IN : Nat
  OUT : Nat
  LOAD : Nat
  STOR : Nat
  JMP : Nat
  JZ : Nat
  PUSH : Nat
  DUP : Nat
  SWAP : Nat
  ROL3 : Nat
  OUTNUM : Nat
  JNZ : Nat
  DROP : Nat
  COMPL : Nat

/-! ## Library functions of Go used by the compiler -/

/-- Go `len(word)` of Go: the number of bytes of the UTF-8 encoding. -/
def golen (word : List Char) : Nat :=
  (word.map Char.utf8Size).sum

/-- Go `unicode.ToLower` as far as the compiler can observe it.  An ASCII capital
goes to its small letter; of the code points outside ASCII exactly two have an
ASCII lower case, `U+0130` (to `i`) and `U+212A` (to `k`).  Every other code
point outside ASCII has a lower case outside ASCII and is left as it is here:
the lowered word is only ever used as a key into tables whose keys are ASCII. -/
def toLowerRune (r : Char) : Char :=
  if 'A' ≤ r ∧ r ≤ 'Z' then Char.ofNat (r.toNat + 32)
  else if r = Char.ofNat 0x130 then 'i'
  else if r = Char.ofNat 0x212A then 'k'
  else r

/-- Go `strings.ToLower`: the word with every code point lowered. -/
def ToLower (word : List Char) : List Char :=
  word.map toLowerRune

/-- The base-10 value of a string of digits, most significant digit first. -/
def decimal (digits : List Char) : Nat :=
  digits.foldl (fun acc d => acc * 10 + (d.toNat - 48)) 0

/-- Go `strconv.ParseInt(s, 10, 32)`: `none` is a non-nil error (syntax or
range), `some v` the parsed value.  An optional sign, then at least one
decimal digit and nothing else; the value has to lie in `[-2^31, 2^31 - 1]`. -/
def ParseInt (s : List Char) : Option Int :=
  match s with
  | [] => none
  | c :: cs =>
    let neg : Bool := c == '-'
    let digits := if c = '+' ∨ c = '-' then cs else s
    if digits = [] then none
    else if ¬ digits.all (fun d => '0' ≤ d ∧ d ≤ '9') then none
    else
      let un := decimal digits
      if ¬ neg ∧ un ≥ 2147483648 then none
      else if neg ∧ un > 2147483648 then none
      else some (if neg then - (un : Int) else (un : Int))

/-! ## The code-point cursor -/

/-- Go `func runein(r rune, coll []rune) bool`. -/
def runein (r : Char) (coll : List Char) : Bool :=
  match coll with
  | [] => false
  | x :: xs => if x = r then true else runein r xs

/-- Go `type runeiter struct`: `inp` is what the reader `in` has not delivered
yet. -/
structure runeiter where
  inp : List Char
  opened : Bool
  closed : Bool
  n : Char
  deriving DecidableEq

/-- Go `func (ri *runeiter) walk()`.  `ReadRune` at the end of the input returns
the rune 0 and an error. -/
def runeiter.walk (ri : runeiter) : Result runeiter :=
  if ri.closed then .ok ri
  else
    match ri.inp with
    | [] => .ok { ri with n := Char.ofNat 0, closed := true }
    | n :: rest =>
      if ri.n = ReplacementChar then .panic .invalidCode
      else .ok { ri with inp := rest, n := n }

/-- Go `func newruneiter(in bufio.Reader) runeiter`. -/
def newruneiter (inp : List Char) : Result runeiter :=
  (runeiter.walk { inp := inp, opened := false, closed := false, n := Char.ofNat 0 }).bind
    fun ret => .ok { ret with opened := true }

/-- Go `func (ri *runeiter) hasnext() bool`. -/
def runeiter.hasnext (ri : runeiter) : Bool :=
  ri.opened && !ri.closed

/-- Go `func (ri *runeiter) next() rune`: the returned rune and the cursor
afterwards. -/
def runeiter.next (ri : runeiter) : Result (Char × runeiter) :=
  let ret := ri.n
  ri.walk.bind fun ri1 => .ok (ret, ri1)

/-! ## The token cursor -/

/-- Go `type lexem struct`. -/
structure lexem where
  val : List Char
  typ : Nat
  deriving DecidableEq

/-- Go `type lexemiter struct`. -/
structure lexemiter where
  runeiter : runeiter
  opened : Bool
  closed : Bool
  exhausted : Bool
  buf : List Char
  deriving DecidableEq

/-- The `for li.runeiter.hasnext()` loop of `lexemiter.walk` together with the
assignment `li.exhausted = true` that follows it. -/
def lexemiter.walkloop : Nat → lexemiter → Result lexemiter
  | 0, _ => .fuel
  | k + 1, li =>
    if li.runeiter.hasnext then
      match li.runeiter.next with
      | .ok (nextrune, ri) =>
        if runein nextrune breakpoints then .ok { li with runeiter := ri }
        else lexemiter.walkloop k { li with runeiter := ri, buf := li.buf ++ [nextrune] }
      | .panic e => .panic e
      | .fuel => .fuel
    else .ok { li with exhausted := true }

/-- Go `func (li *lexemiter) walk()`.  Every turn of the loop but the last takes
one code point from the reader, so the unread length plus two bounds it. -/
def lexemiter.walk (li : lexemiter) : Result lexemiter :=
  if li.closed then .ok li
  else if li.exhausted then .ok { li with closed := true }
  else lexemiter.walkloop (li.runeiter.inp.length + 2) { li with buf := [] }

/-- Go `func newlexemiter(runeiter runeiterator) lexemiter`. -/
def newlexemiter (ri : runeiter) : Result lexemiter :=
  (lexemiter.walk
    { runeiter := ri, opened := false, closed := false, exhausted := false, buf := [] }).bind
    fun ret => .ok { ret with opened := true }

/-- Go `func (li *lexemiter) hasnext() bool`. -/
def lexemiter.hasnext (li : lexemiter) : Bool :=
  li.opened && !li.closed

/-! ## The classifier -/

/-- Go `func isinteger(word string) bool`. -/
def isinteger (word : List Char) : Bool :=
  match word with
  | [] => true
  | l :: ls => if !(('0' ≤ l) && (l ≤ '9')) then false else isinteger ls

/-- The keys of the map `iset` of `isinstruction`, in the order of the
source. -/
def iset : List (List Char) :=
  ["nop".toList, "add".toList, "sub".toList, "and".toList, "or".toList, "xor".toList,
   "not".toList, "in".toList, "out".toList, "load".toList, "stor".toList, "jmp".toList,
   "jz".toList, "push".toList, "dup".toList, "swap".toList, "rol3".toList,
   "outnum".toList, "jnz".toList, "drop".toList, "compl".toList]

/-- Go `func isinstruction(word string) bool`. -/
def isinstruction (word : List Char) : Bool :=
  iset.contains (ToLower word)

/-- The `for _, l := range word` loop of `islabel`: `false` when the loop
returns `false`, `true` when it runs to its end. -/
def islabel.loop (word : List Char) : Bool :=
  match word with
  | [] => true
  | l :: ls =>
    if l = '_' then islabel.loop ls
    else if l = ':' then islabel.loop ls
    else if l < 'a' then false
    else if l > 'z' then false
    else islabel.loop ls

/-- Go `func islabel(word string) bool`; `runes[len(runes)-1]` panics on the
empty word. -/
def islabel (word : List Char) : Result Bool :=
  if !islabel.loop word then .ok false
  else
    let lensatisf : Bool := golen word ≥ 2
    match word.getLast? with
    | none => .panic .outOfRange
    | some r =>
      let colonend : Bool := r == ':'
      .ok (lensatisf && colonend)

/-- The `for _, l := range word` loop of `islabelref`. -/
def islabelref.loop (word : List Char) : Bool :=
  match word with
  | [] => true
  | l :: ls =>
    if l = '_' then islabelref.loop ls
    else if l = '&' then islabelref.loop ls
    else if l < 'a' then false
    else if l > 'z' then false
    else islabelref.loop ls

/-- Go `func islabelref(word string) bool`; `[]rune(word)[0]` panics on the empty
word. -/
def islabelref (word : List Char) : Result Bool :=
  if !islabelref.loop word then .ok false
  else
    let lensatisf : Bool := golen word ≥ 2
    match word.head? with
    | none => .panic .outOfRange
    | some r =>
      let amperstart : Bool := r == '&'
      .ok (lensatisf && amperstart)

/-- Go `func decode(word string) int`. -/
def decode (word : List Char) : Result Nat :=
  if isinteger word then .ok _INTEGER
  else if isinstruction word then .ok _INSTRUCTION
  else
    (islabel word).bind fun isl =>
      if isl then .ok _LABEL
      else
        (islabelref word).bind fun isr =>
          if isr then .ok _LABELREF
          else .panic .unknownFormat

/-- Go `func (li *lexemiter) next() lexem`: the lexem and the cursor afterwards. -/
def lexemiter.next (li : lexemiter) : Result (lexem × lexemiter) :=
  let val := li.buf
  (decode val).bind fun typ =>
    li.walk.bind fun li1 => .ok ({ val := val, typ := typ }, li1)

/-! ## The compiler -/

/-- Go `type compiler struct`.  The map `labels` is a list of bindings, the
newest first, read with `List.lookup`.  The counter `ino` is a Go `int`; it
is only ever read through `uint32(c.ino)`, which is the same for the wrapped
and the unwrapped counter, so it is an unbounded integer here. -/
structure compiler where
  inp : List Char
  labels : List (List Char × Nat)
  ino : Int
  deriving DecidableEq

/-- The map `strmap` of `compileinstr`, in the order of the source. -/
def strmap (emu : Emu) : List (List Char × Nat) :=
  [("nop".toList, emu.NOP), ("add".toList, emu.ADD), ("sub".toList, emu.SUB),
   ("and".toList, emu.AND), ("or".toList, emu.OR), ("xor".toList, emu.XOR),
   ("not".toList, emu.NOT), ("in".toList, emu.IN), ("out".toList, emu.OUT),
   ("load".toList, emu.LOAD), ("stor".toList, emu.STOR), ("jmp".toList, emu.JMP),
   ("jz".toList, emu.JZ), ("push".toList, emu.PUSH), ("dup".toList, emu.DUP),
   ("swap".toList, emu.SWAP), ("rol3".toList, emu.ROL3), ("outnum".toList, emu.OUTNUM),
   ("jnz".toList, emu.JNZ), ("drop".toList, emu.DROP), ("compl".toList, emu.COMPL)]

/-- Go `func (c *compiler) compileinstr(value string) uint32`. -/
def compiler.compileinstr (emu : Emu) (_c : compiler) (value : List Char) : Result Nat :=
  match (strmap emu).lookup (ToLower value) with
  | some code => .ok code
  | none => .panic .unknownMnemonics

/-- Go `func (c *compiler) compileint(value string) uint32`. -/
def compiler.compileint (_c : compiler) (value : List Char) : Result Nat :=
  match ParseInt value with
  | none => .panic .parseInt
  | some asint64 => .ok (asint64 % 4294967296).toNat

/-- Go `func (c *compiler) compilelabel(value string) uint32`: the word and the
compiler afterwards.  `value[:len(value)-1]` panics on the empty word and
otherwise cuts the last byte, which is the last code point for every word the
classifier calls a label (all of them ASCII). -/
def compiler.compilelabel (emu : Emu) (c : compiler) (value : List Char) :
    Result (Nat × compiler) :=
  if value = [] then .panic .outOfRange
  else
    let raw := value.dropLast
    match c.labels.lookup raw with
    | some _ => .panic (.overwriteLabel raw)
    | none =>
      .ok (emu.NOP, { c with labels := (raw, (c.ino % 4294967296).toNat) :: c.labels })

/-- Go `func (c *compiler) compilelabelref(value string) uint32`.  `value[1:]`
panics on the empty word and otherwise cuts the first byte. -/
def compiler.compilelabelref (c : compiler) (value : List Char) : Result Nat :=
  match value with
  | [] => .panic .outOfRange
  | _ :: raw =>
    match c.labels.lookup raw with
    | some labref => .ok labref
    | none => .panic (.unexistantLabel raw)

/-- The `switch lexem.typ` of `compile`: the word `apnd` and the compiler
afterwards. -/
def compiler.switch (emu : Emu) (c : compiler) (lx : lexem) : Result (Nat × compiler) :=
  if lx.typ = _INSTRUCTION then (c.compileinstr emu lx.val).bind fun apnd => .ok (apnd, c)
  else if lx.typ = _INTEGER then (c.compileint lx.val).bind fun apnd => .ok (apnd, c)
  else if lx.typ = _LABEL then c.compilelabel emu lx.val
  else if lx.typ = _LABELREF then (c.compilelabelref lx.val).bind fun apnd => .ok (apnd, c)
  else .panic .unknownLexemType

/-- The `for li.hasnext()` loop of `compile` and the `return buf` after it:
the words and the compiler afterwards. -/
def compiler.loop (emu : Emu) : Nat → compiler → lexemiter → List Nat →
    Result (List Nat × compiler)
  | 0, _, _, _ => .fuel
  | k + 1, c, li, buf =>
    if li.hasnext then
      match li.next with
      | .ok (lx, li1) =>
        match c.switch emu lx with
        | .ok (apnd, c1) =>
          compiler.loop emu k { c1 with ino := c1.ino + 1 } li1 (buf ++ [apnd])
        | .panic e => .panic e
        | .fuel => .fuel
      | .panic e => .panic e
      | .fuel => .fuel
    else .ok (buf, c)

/-- Go `func (c *compiler) compile() []uint32`: the returned words and the
compiler afterwards.  There is one turn of the loop per token and at most one
more token than code points, so the length of the input plus two bounds the
loop. -/
def compiler.compile (emu : Emu) (c : compiler) : Result (List Nat × compiler) :=
  (newruneiter c.inp).bind fun test =>
    (newlexemiter test).bind fun test1 =>
      compiler.loop emu (c.inp.length + 2) c test1 []

/-- Go `func Compile(in bufio.Reader) []uint32`. -/
def Compile (emu : Emu) (inp : List Char) : Result (List Nat) :=
  (compiler.compile emu { inp := inp, labels := [], ino := 1 }).map Prod.fst

/-! ## Tokens and the run over a list of tokens -/

/-- The tokens of an input as the specification describes them: the segments
between the breakpoint characters (space and newline), the empty ones
included; there is always one token more than there are breakpoints. -/
def tokens : List Char → List (List Char)
  | [] => [[]]
  | c :: cs =>
    if runein c breakpoints then [] :: tokens cs
    else
      match tokens cs with
      | [] => [[c]]
      | w :: ws => (c :: w) :: ws

/-- One turn of the loop of `compile` on the word of a token: `decode` (inside
`next`), the `switch`, and `c.ino++`. -/
def compiler.turn (emu : Emu) (c : compiler) (w : List Char) : Result (Nat × compiler) :=
  (decode w).bind fun typ =>
    (c.switch emu { val := w, typ := typ }).bind fun p =>
      .ok (p.1, { p.2 with ino := p.2.ino + 1 })

/-- The turns of the loop of `compile` over a list of words, one after the
other: the words emitted and the compiler afterwards. -/
def compiler.run (emu : Emu) : compiler → List (List Char) → Result (List Nat × compiler)
  | c, [] => .ok ([], c)
  | c, w :: ws =>
    (c.turn emu w).bind fun p =>
      (compiler.run emu p.2 ws).bind fun q => .ok (p.1 :: q.1, q.2)

/-- The cursor of `newruneiter` over a stream, and every cursor reached from
it: the first code point of what is left sits in `n`. -/
def riOf : List Char → runeiter
  | [] => { inp := [], opened := true, closed := true, n := Char.ofNat 0 }
  | c :: cs => { inp := cs, opened := true, closed := false, n := c }

/-- What the loop of `lexemiter.walk` does to the buffer `b` over the stream
`l`: the completed token and what is left after its breakpoint (`none` when
the stream ended first). -/
def scan (b : List Char) : List Char → Result (List Char × Option (List Char))
  | [] => .ok (b, none)
  | c :: cs =>
    if c = ReplacementChar ∧ cs ≠ [] then .panic .invalidCode
    else if runein c breakpoints then .ok (b, some cs)
    else scan (b ++ [c]) cs

/-- The token cursor between two turns of the loop of `compile`: the token
`w` in the buffer, `r` the stream after its breakpoint. -/
def liOf (w : List Char) : Option (List Char) → lexemiter
  | none => { runeiter := riOf [], opened := true, closed := false, exhausted := true, buf := w }
  | some r => { runeiter := riOf r, opened := true, closed := false, exhausted := false, buf := w }

/-- The tokens still to come behind the one in the buffer. -/
def restToks : Option (List Char) → List (List Char)
  | none => []
  | some r => tokens r

/-- A bound on the turns of the loop still to come. -/
def restLen : Option (List Char) → Nat
  | none => 0
  | some r => r.length + 1

/-- The stream behind the token in the buffer has a `U+FFFD`. -/
def restRep : Option (List Char) → Prop
  | none => False
  | some r => ReplacementChar ∈ r

/-- An assignment of numbers to the opcode constants, for evaluating the
compiler on concrete inputs. -/
def emu0 : Emu :=
  ⟨0, 1, 2, 3, 4, 5, 6, 7, 8, 9, 10, 11, 12, 13, 14, 15, 16, 17, 18, 19, 20⟩

/-- The label table entries that a run over the words adds, the newest first,
when the counter is `ino` at the first word. -/
def labeldefs (ino : Int) : List (List Char) → List (List Char × Nat)
  | [] => []
  | w :: ws =>
    if decode w = .ok _LABEL then
      labeldefs (ino + 1) ws ++ [(w.dropLast, (ino % 4294967296).toNat)]
    else labeldefs (ino + 1) ws

/-- Two code points that are equal or the capital and the small form of one
ASCII letter. -/
def sameLetter (a b : Char) : Bool :=
  a == b || (decide ('A' ≤ a ∧ a ≤ 'Z') && b.toNat == a.toNat + 32) ||
    (decide ('A' ≤ b ∧ b ≤ 'Z') && a.toNat == b.toNat + 32)

/-- The word `w` differs from the word `m` only in the case of ASCII letters. -/
def caseVariant : List Char → List Char → Bool
  | [], [] => true
  | a :: as, b :: bs => sameLetter a b && caseVariant as bs
  | _, _ => false

/-- The program text of `n` instructions `nop`, then the definition of the
label `a`, then a reference to it, all separated by single spaces. -/
def nopsThenLabel (n : Nat) : List Char :=
  (List.replicate n "nop ".toList).flatten ++ "a: &a".toList

/-- The label-definition token number `k` of a family of pairwise distinct
ones: the low 32 binary digits of `k`, written `a` for 0 and `b` for 1, and
the colon. -/
def labelName (k : Nat) : List Char :=
  (List.range 32).map (fun i => if k.testBit i then 'b' else 'a') ++ [':']

/-- The first `n` label-definition tokens of the family `labelName`. -/
def manyLabels (n : Nat) : List (List Char) :=
  (List.range n).map labelName

/-- The panics that belong to the error kinds of the compiler: an invalid code
point or an undecodable word (decode error), an unknown mnemonic, an integer
that does not parse, a duplicate label, an undefined label.  The other two,
the index out of range and the unknown lexem type, are not among them. -/
def Err.listed : Err → Bool
  | .invalidCode => true
  | .unknownFormat => true
  | .unknownMnemonics => true
  | .parseInt => true
  | .overwriteLabel _ => true
  | .unexistantLabel _ => true
  | .unknownLexemType => false
  | .outOfRange => false

/-- The input begins with a space or a newline. -/
def beginsWithBreakpoint (l : List Char) : Prop :=
  ∃ c, l.head? = some c ∧ runein c breakpoints = true

/-- The input ends with a space or a newline. -/
def endsWithBreakpoint (l : List Char) : Prop :=
  ∃ c, l.getLast? = some c ∧ runein c breakpoints = true

/-- The input has two adjacent characters that are spaces or newlines. -/
def hasAdjacentBreakpoints (l : List Char) : Prop :=
  ∃ pre c d post, l = pre ++ c :: d :: post ∧
    runein c breakpoints = true ∧ runein d breakpoints = true

/-- Calling `next()` while `hasnext()` is true, as a consumer of the
code-point cursor does: the code points returned, in order, and the cursor at
the end. -/
def runeiter.drain : Nat → runeiter → Result (List Char × runeiter)
  | 0, _ => .fuel
  | k + 1, ri =>
    if ri.hasnext then
      ri.next.bind fun p =>
        (runeiter.drain k p.2).bind fun q => .ok (p.1 :: q.1, q.2)
    else .ok ([], ri)

/-- The code points that a code-point cursor has yet to hand out: the buffered
one followed by the rest of the stream, and nothing when `hasnext()` is
false. -/
def runeiter.rem (ri : runeiter) : List Char :=
  if ri.hasnext then ri.n :: ri.inp else []

/-- Taking the buffer and calling `walk()` while `hasnext()` is true, which is
what a consumer of the token cursor does through `next()` (the call of
`decode` left aside): the buffers seen, in order. -/
def lexemiter.drain : Nat → lexemiter → Result (List (List Char))
  | 0, _ => .fuel
  | k + 1, li =>
    if li.hasnext then
      li.walk.bind fun li1 =>
        (lexemiter.drain k li1).bind fun rest => .ok (li.buf :: rest)
    else .ok []

/-- The tokens that the token cursor built over an input delivers, as
`compile` builds it (`newruneiter`, then `newlexemiter`). -/
def delivered (inp : List Char) : Result (List (List Char)) :=
  (newruneiter inp).bind fun test =>
    (newlexemiter test).bind fun test1 =>
      lexemiter.drain (inp.length + 2) test1

/-- The opcode constant of a mnemonic as the specification names it: the
constant of the instruction set that carries the name of the mnemonic (`nop`
has `NOP`, `add` has `ADD`, and so on); `none` for a word that is no
mnemonic. -/
def opcode (emu : Emu) (m : List Char) : Option Nat :=
  if m = "nop".toList then some emu.NOP
  else if m = "add".toList then some emu.ADD
  else if m = "sub".toList then some emu.SUB
  else if m = "and".toList then some emu.AND
  else if m = "or".toList then some emu.OR
  else if m = "xor".toList then some emu.XOR
  else if m = "not".toList then some emu.NOT
  else if m = "in".toList then some emu.IN
  else if m = "out".toList then some emu.OUT
  else if m = "load".toList then some emu.LOAD
  else if m = "stor".toList then some emu.STOR
  else if m = "jmp".toList then some emu.JMP
  else if m = "jz".toList then some emu.JZ
  else if m = "push".toList then some emu.PUSH
  else if m = "dup".toList then some emu.DUP
  else if m = "swap".toList then some emu.SWAP
  else if m = "rol3".toList then some emu.ROL3
  else if m = "outnum".toList then some emu.OUTNUM
  else if m = "jnz".toList then some emu.JNZ
  else if m = "drop".toList then some emu.DROP
  else if m = "compl".toList then some emu.COMPL
  else none

/-! ## Basic facts -/

@[simp] theorem Result.bind_ok {α β : Type} (a : α) (f : α → Result β) :
    (Result.ok a).bind f = f a := rfl

@[simp] theorem Result.bind_panic {α β : Type} (e : Err) (f : α → Result β) :
    (Result.panic e : Result α).bind f = .panic e := rfl

@[simp] theorem Result.bind_fuel {α β : Type} (f : α → Result β) :
    (Result.fuel : Result α).bind f = .fuel := rfl

theorem Result.bind_eq_ok {α β : Type} {x : Result α} {f : α → Result β} {b : β} :
    x.bind f = .ok b ↔ ∃ a, x = .ok a ∧ f a = .ok b := by
  cases x <;> simp

theorem char_le_iff (a b : Char) : a ≤ b ↔ a.toNat ≤ b.toNat := Iff.rfl

theorem char_lt_iff (a b : Char) : a < b ↔ a.toNat < b.toNat := Iff.rfl

theorem char_eq_iff (a b : Char) : a = b ↔ a.toNat = b.toNat := by
  constructor
  · intro h; rw [h]
  · intro h
    apply Char.ext
    apply UInt32.ext
    exact h

theorem runein_breakpoints (c : Char) :
    runein c breakpoints = true ↔ c = '\n' ∨ c = ' ' := by
  unfold breakpoints
  simp only [runein]
  by_cases h1 : '\n' = c
  · simp [h1.symm]
  · by_cases h2 : ' ' = c
    · simp [h2.symm]
    · have h3 : ¬ c = '\n' := fun h => h1 h.symm
      have h4 : ¬ c = ' ' := fun h => h2 h.symm
      simp [h1, h2, h3, h4]

theorem newruneiter_eq (l : List Char) : newruneiter l = .ok (riOf l) := by
  cases l <;> simp [newruneiter, runeiter.walk, riOf, ReplacementChar]

theorem riOf_hasnext (l : List Char) : (riOf l).hasnext = !l.isEmpty := by
  cases l <;> simp [riOf, runeiter.hasnext]

theorem riOf_next (c : Char) (cs : List Char) :
    (riOf (c :: cs)).next =
      if c = ReplacementChar ∧ cs ≠ [] then .panic .invalidCode else .ok (c, riOf cs) := by
  cases cs with
  | nil => simp [riOf, runeiter.next, runeiter.walk]
  | cons d ds =>
    by_cases h : c = ReplacementChar <;> simp [riOf, runeiter.next, runeiter.walk, h]

theorem riOf_inp_length (l : List Char) : (riOf l).inp.length = l.length - 1 := by
  cases l <;> simp [riOf]

/-- The loop of `walk` over the cursor of a stream is `scan`, given fuel for
one turn per code point and one more. -/
theorem walkloop_eq (l : List Char) : ∀ (k : Nat) (b : List Char) (o cl ex : Bool),
    l.length + 1 ≤ k →
    lexemiter.walkloop k
        { runeiter := riOf l, opened := o, closed := cl, exhausted := ex, buf := b } =
      (scan b l).bind fun p =>
        .ok (match p.2 with
          | none =>
            { runeiter := riOf [], opened := o, closed := cl, exhausted := true, buf := p.1 }
          | some r =>
            { runeiter := riOf r, opened := o, closed := cl, exhausted := ex, buf := p.1 }) := by
  induction l with
  | nil =>
    intro k b o cl ex hk
    obtain ⟨k, rfl⟩ : ∃ j, k = j + 1 := ⟨k - 1, by omega⟩
    simp [lexemiter.walkloop, riOf_hasnext, scan]
  | cons c cs ih =>
    intro k b o cl ex hk
    obtain ⟨k, rfl⟩ : ∃ j, k = j + 1 := ⟨k - 1, by omega⟩
    have hk1 : cs.length + 1 ≤ k := by simpa using hk
    simp only [lexemiter.walkloop, riOf_hasnext, riOf_next, scan]
    by_cases h : c = ReplacementChar ∧ cs ≠ []
    · simp [h]
    · simp only [h, if_false]
      by_cases hb : runein c breakpoints = true
      · simp [hb]
      · simp only [hb]
        simpa using ih k (b ++ [c]) o cl ex hk1

/-! ## The classifier loops as predicates on the code points -/

theorem isinteger_iff (w : List Char) :
    isinteger w = true ↔ ∀ c ∈ w, '0' ≤ c ∧ c ≤ '9' := by
  induction w with
  | nil => simp [isinteger]
  | cons l ls ih =>
    simp only [isinteger, List.mem_cons, forall_eq_or_imp]
    by_cases h : '0' ≤ l ∧ l ≤ '9'
    · simp [h, ih]
    · have h1 : ¬ ('0' ≤ l ∧ l ≤ '9') := h
      simp only [h1, false_and, iff_false]
      simp only [not_and] at h
      by_cases h0 : '0' ≤ l
      · simp [h0, h h0]
      · simp [h0]

theorem islabel_loop_iff (w : List Char) :
    islabel.loop w = true ↔ ∀ c ∈ w, c = '_' ∨ c = ':' ∨ ('a' ≤ c ∧ c ≤ 'z') := by
  induction w with
  | nil => simp [islabel.loop]
  | cons l ls ih =>
    simp only [islabel.loop, List.mem_cons, forall_eq_or_imp]
    by_cases h1 : l = '_'
    · simp [h1, ih]
    · by_cases h2 : l = ':'
      · simp [h2, ih]
      · by_cases h3 : l < 'a'
        · have : ¬ 'a' ≤ l := not_le.mpr h3
          simp [h1, h2, h3, this]
        · by_cases h4 : l > 'z'
          · have : ¬ l ≤ 'z' := not_le.mpr h4
            simp [h1, h2, h3, h4, this]
          · have h5 : 'a' ≤ l := not_lt.mp h3
            have h6 : l ≤ 'z' := not_lt.mp h4
            simp [h1, h2, h3, h4, h5, h6, ih]

theorem islabelref_loop_iff (w : List Char) :
    islabelref.loop w = true ↔ ∀ c ∈ w, c = '_' ∨ c = '&' ∨ ('a' ≤ c ∧ c ≤ 'z') := by
  induction w with
  | nil => simp [islabelref.loop]
  | cons l ls ih =>
    simp only [islabelref.loop, List.mem_cons, forall_eq_or_imp]
    by_cases h1 : l = '_'
    · simp [h1, ih]
    · by_cases h2 : l = '&'
      · simp [h2, ih]
      · by_cases h3 : l < 'a'
        · have : ¬ 'a' ≤ l := not_le.mpr h3
          simp [h1, h2, h3, this]
        · by_cases h4 : l > 'z'
          · have : ¬ l ≤ 'z' := not_le.mpr h4
            simp [h1, h2, h3, h4, this]
          · have h5 : 'a' ≤ l := not_lt.mp h3
            have h6 : l ≤ 'z' := not_lt.mp h4
            simp [h1, h2, h3, h4, h5, h6, ih]

theorem isinstruction_iff (w : List Char) : isinstruction w = true ↔ ToLower w ∈ iset := by
  simp [isinstruction]

/-- Every code point of a mnemonic is a small ASCII letter or a digit. -/
theorem iset_chars : ∀ m ∈ iset, ∀ c ∈ m, ('a' ≤ c ∧ c ≤ 'z') ∨ ('0' ≤ c ∧ c ≤ '9') := by
  decide

theorem toLowerRune_of_not_upper_ascii (c : Char) (h : ¬ ('A' ≤ c ∧ c ≤ 'Z'))
    (h1 : c ≠ Char.ofNat 0x130) (h2 : c ≠ Char.ofNat 0x212A) : toLowerRune c = c := by
  simp [toLowerRune, h, h1, h2]

/-- A code point that is neither a letter, a digit, `U+0130` nor `U+212A` is
in no lowered mnemonic. -/
theorem not_mem_iset_of_mem (w : List Char) (c : Char) (hc : c ∈ w)
    (h0 : ¬ ('A' ≤ c ∧ c ≤ 'Z')) (h1 : c ≠ Char.ofNat 0x130) (h2 : c ≠ Char.ofNat 0x212A)
    (h3 : ¬ ('a' ≤ c ∧ c ≤ 'z')) (h4 : ¬ ('0' ≤ c ∧ c ≤ '9')) : isinstruction w = false := by
  rw [Bool.eq_false_iff]
  intro h
  rw [isinstruction_iff] at h
  have hm : toLowerRune c ∈ ToLower w := List.mem_map_of_mem _ hc
  rw [toLowerRune_of_not_upper_ascii c h0 h1 h2] at hm
  rcases iset_chars _ h c hm with h5 | h5
  · exact h3 h5
  · exact h4 h5

theorem islabel_ne_fuel (w : List Char) : islabel w ≠ .fuel := by
  unfold islabel
  split
  · simp
  · cases w.getLast? <;> simp

theorem islabelref_ne_fuel (w : List Char) : islabelref w ≠ .fuel := by
  unfold islabelref
  split
  · simp
  · cases w.head? <;> simp

theorem decode_ne_fuel (w : List Char) : decode w ≠ .fuel := by
  unfold decode
  split
  · simp
  · split
    · simp
    · cases h1 : islabel w with
      | fuel => exact absurd h1 (islabel_ne_fuel w)
      | panic e => simp
      | ok isl =>
        cases isl with
        | true => simp
        | false =>
          cases h2 : islabelref w with
          | fuel => exact absurd h2 (islabelref_ne_fuel w)
          | panic e => simp
          | ok isr => cases isr <;> simp

/-- A word with a code point that no rule admits, and that is no mnemonic,
is not decoded. -/
theorem decode_panic_of_mem (w : List Char) (c : Char) (hc : c ∈ w)
    (hd : ¬ ('0' ≤ c ∧ c ≤ '9')) (hi : isinstruction w = false)
    (hl : ¬ ('a' ≤ c ∧ c ≤ 'z')) (h1 : c ≠ '_') (h2 : c ≠ ':') (h3 : c ≠ '&') :
    decode w = .panic .unknownFormat := by
  have hint : isinteger w = false := by
    rw [Bool.eq_false_iff]
    intro h
    exact hd ((isinteger_iff w).mp h c hc)
  have hlab : islabel.loop w = false := by
    rw [Bool.eq_false_iff]
    intro h
    rcases (islabel_loop_iff w).mp h c hc with h | h | h
    · exact h1 h
    · exact h2 h
    · exact hl h
  have href : islabelref.loop w = false := by
    rw [Bool.eq_false_iff]
    intro h
    rcases (islabelref_loop_iff w).mp h c hc with h | h | h
    · exact h1 h
    · exact h3 h
    · exact hl h
  simp [decode, hint, hi, islabel, islabelref, hlab, href]

theorem decode_replacement (w : List Char) (h : ReplacementChar ∈ w) :
    decode w = .panic .unknownFormat :=
  decode_panic_of_mem w ReplacementChar h (by decide)
    (not_mem_iset_of_mem w ReplacementChar h (by decide) (by decide) (by decide) (by decide)
      (by decide))
    (by decide) (by decide) (by decide) (by decide)

theorem switch_ne_fuel (emu : Emu) (c : compiler) (lx : lexem) : c.switch emu lx ≠ .fuel := by
  have h1 : ∀ v, c.compileinstr emu v ≠ .fuel := by
    intro v; unfold compiler.compileinstr; cases (strmap emu).lookup (ToLower v) <;> simp
  have h2 : ∀ v, c.compileint v ≠ .fuel := by
    intro v; unfold compiler.compileint; cases ParseInt v <;> simp
  have h3 : ∀ v, c.compilelabel emu v ≠ .fuel := by
    intro v; unfold compiler.compilelabel
    split
    · simp
    · simp only
      cases c.labels.lookup v.dropLast <;> simp
  have h4 : ∀ v, c.compilelabelref v ≠ .fuel := by
    intro v; unfold compiler.compilelabelref
    cases v with
    | nil => simp
    | cons x raw => simp only; cases c.labels.lookup raw <;> simp
  unfold compiler.switch
  split
  · cases h : c.compileinstr emu lx.val with
    | fuel => exact absurd h (h1 _)
    | _ => simp
  · split
    · cases h : c.compileint lx.val with
      | fuel => exact absurd h (h2 _)
      | _ => simp
    · split
      · exact h3 _
      · split
        · cases h : c.compilelabelref lx.val with
          | fuel => exact absurd h (h4 _)
          | _ => simp
        · simp

/-! ## The token cursor follows `tokens` -/

theorem tokens_ne_nil (l : List Char) : tokens l ≠ [] := by
  cases l with
  | nil => simp [tokens]
  | cons c cs =>
    simp only [tokens]
    split
    · simp
    · split <;> simp

theorem tokens_cons_of_not_bp (c : Char) (cs : List Char) (h : runein c breakpoints = false) :
    tokens (c :: cs) = (c :: (tokens cs).headD []) :: (tokens cs).tail := by
  have := tokens_ne_nil cs
  cases hs : tokens cs with
  | nil => exact absurd hs this
  | cons w ws => simp [tokens, h, hs]

theorem scan_ne_fuel (l : List Char) : ∀ b, scan b l ≠ .fuel := by
  induction l with
  | nil => intro b; simp [scan]
  | cons c cs ih =>
    intro b
    simp only [scan]
    split
    · simp
    · split
      · simp
      · exact ih _

/-- The stream ended before a breakpoint: the token is all of it. -/
theorem scan_none (l : List Char) : ∀ b w, scan b l = .ok (w, none) →
    w = b ++ l ∧ tokens l = [l] := by
  induction l with
  | nil => intro b w h; simp [scan] at h; simp [h, tokens]
  | cons c cs ih =>
    intro b w h
    simp only [scan] at h
    split at h
    · simp at h
    · split at h
      · simp at h
      · rename_i hbp
        have hbp1 : runein c breakpoints = false := by simpa using hbp
        obtain ⟨h1, h2⟩ := ih _ _ h
        refine ⟨by simp [h1], ?_⟩
        rw [tokens_cons_of_not_bp c cs hbp1]
        simp [h2]

/-- A breakpoint ended the token: the tokens of the stream are the token and
the tokens of what follows the breakpoint, and the token has no `U+FFFD`. -/
theorem scan_some (l : List Char) : ∀ b w r, scan b l = .ok (w, some r) →
    ∃ x, w = b ++ x ∧ tokens l = x :: tokens r ∧ r.length < l.length ∧
      (ReplacementChar ∈ l → ReplacementChar ∈ r) ∧ (ReplacementChar ∈ r → ReplacementChar ∈ l) := by
  induction l with
  | nil => intro b w r h; simp [scan] at h
  | cons c cs ih =>
    intro b w r h
    simp only [scan] at h
    split at h
    · simp at h
    · rename_i hrep
      split at h
      · rename_i hbp
        simp only [Result.ok.injEq, Prod.mk.injEq, Option.some.injEq] at h
        obtain ⟨rfl, rfl⟩ := h
        refine ⟨[], by simp, by simp [tokens, hbp], by simp, ?_, ?_⟩
        · intro hm
          rcases List.mem_cons.mp hm with hm | hm
          · rw [← hm] at hbp
            exact absurd hbp (by decide)
          · exact hm
        · intro hm; exact List.mem_cons_of_mem _ hm
      · rename_i hbp
        have hbp1 : runein c breakpoints = false := by simpa using hbp
        obtain ⟨x, h1, h2, h3, h4, h5⟩ := ih _ _ _ h
        refine ⟨c :: x, by simp [h1], ?_, by simp; omega, ?_, ?_⟩
        · rw [tokens_cons_of_not_bp c cs hbp1]
          simp [h2]
        · intro hm
          rcases List.mem_cons.mp hm with hm | hm
          · have hcs : cs ≠ [] := by
              intro hnil
              rw [hnil] at h3
              simp at h3
            exact absurd ⟨hm.symm, hcs⟩ hrep
          · exact h4 hm
        · intro hm; exact List.mem_cons_of_mem _ (h5 hm)

theorem scan_ok_of_no_replacement (l : List Char) : ∀ b, ReplacementChar ∉ l →
    ∃ p, scan b l = .ok p := by
  induction l with
  | nil => intro b _; exact ⟨_, rfl⟩
  | cons c cs ih =>
    intro b h
    have hc : ¬ c = ReplacementChar := fun hc => h (by simp [hc])
    have hcs : ReplacementChar ∉ cs := fun hm => h (List.mem_cons_of_mem _ hm)
    simp only [scan, hc, false_and, if_false]
    split
    · exact ⟨_, rfl⟩
    · exact ih _ hcs

theorem scan_spec (l w : List Char) (r : Option (List Char)) (h : scan [] l = .ok (w, r)) :
    tokens l = w :: restToks r ∧ restLen r < l.length + 1 ∧
      (ReplacementChar ∈ l → ReplacementChar ∈ w ∨ restRep r) ∧
      (restRep r → ReplacementChar ∈ l) := by
  cases r with
  | none =>
    obtain ⟨h1, h2⟩ := scan_none l [] w h
    simp only [List.nil_append] at h1
    subst h1
    exact ⟨by simp [h2, restToks], by simp [restLen], fun hm => Or.inl hm, fun hm => hm.elim⟩
  | some r =>
    obtain ⟨x, h1, h2, h3, h4, h5⟩ := scan_some l [] w r h
    simp only [List.nil_append] at h1
    subst h1
    exact ⟨by simp [h2, restToks], by simp [restLen]; omega, fun hm => Or.inr (h4 hm), h5⟩

@[simp] theorem liOf_buf (w : List Char) (r : Option (List Char)) : (liOf w r).buf = w := by
  cases r <;> rfl

@[simp] theorem liOf_hasnext (w : List Char) (r : Option (List Char)) :
    (liOf w r).hasnext = true := by
  cases r <;> rfl

theorem walk_liOf_none (w : List Char) :
    (liOf w none).walk = .ok { liOf w none with closed := true } := by
  simp [liOf, lexemiter.walk]

theorem walk_liOf_some (w r : List Char) :
    (liOf w (some r)).walk = (scan [] r).bind fun p => .ok (liOf p.1 p.2) := by
  simp only [liOf, lexemiter.walk, Bool.false_eq_true, if_false]
  have hk : r.length + 1 ≤ (riOf r).inp.length + 2 := by
    rw [riOf_inp_length]; omega
  rw [walkloop_eq r _ [] true false false hk]

theorem run_cons (emu : Emu) (c : compiler) (w : List Char) (ws : List (List Char)) :
    compiler.run emu c (w :: ws) =
      (decode w).bind fun typ =>
        (c.switch emu { val := w, typ := typ }).bind fun p =>
          (compiler.run emu { p.2 with ino := p.2.ino + 1 } ws).bind fun q =>
            .ok (p.1 :: q.1, q.2) := by
  simp only [compiler.run, compiler.turn]
  cases decode w with
  | ok typ =>
    simp only [Result.bind_ok]
    cases c.switch emu { val := w, typ := typ } <;> simp
  | panic e => simp
  | fuel => simp

theorem loop_step (emu : Emu) (k : Nat) (c : compiler) (li : lexemiter) (buf : List Nat)
    (h : li.hasnext = true) :
    compiler.loop emu (k + 1) c li buf =
      (decode li.buf).bind fun typ =>
        li.walk.bind fun li1 =>
          (c.switch emu { val := li.buf, typ := typ }).bind fun p =>
            compiler.loop emu k { p.2 with ino := p.2.ino + 1 } li1 (buf ++ [p.1]) := by
  simp only [compiler.loop, h, if_true, lexemiter.next]
  cases decode li.buf with
  | ok typ =>
    simp only [Result.bind_ok]
    cases li.walk with
    | ok li1 =>
      simp only [Result.bind_ok]
      cases c.switch emu { val := li.buf, typ := typ } <;> simp
    | panic e => simp
    | fuel => simp
  | panic e => simp
  | fuel => simp

theorem loop_closed (emu : Emu) (k : Nat) (c : compiler) (li : lexemiter) (buf : List Nat)
    (h : li.hasnext = false) : compiler.loop emu (k + 1) c li buf = .ok (buf, c) := by
  simp [compiler.loop, h]

/-- The loop of `compile`, entered with a token in the buffer: it is the run
over the tokens when the stream yet to be read has no `U+FFFD`, and it panics
when the token or that stream has one. -/
theorem loop_spec (emu : Emu) : ∀ (n : Nat) (r : Option (List Char)), restLen r ≤ n →
    ∀ (k : Nat) (c : compiler) (w : List Char) (buf : List Nat), n + 2 ≤ k →
      (¬ restRep r → compiler.loop emu k c (liOf w r) buf =
          (compiler.run emu c (w :: restToks r)).bind fun q => .ok (buf ++ q.1, q.2)) ∧
      (ReplacementChar ∈ w ∨ restRep r → ∃ e, compiler.loop emu k c (liOf w r) buf = .panic e) := by
  intro n
  induction n with
  | zero =>
    intro r hr k c w buf hk
    cases r with
    | some l => simp [restLen] at hr
    | none =>
      obtain ⟨k, rfl⟩ : ∃ j, k = j + 2 := ⟨k - 2, by omega⟩
      rw [loop_step emu _ c _ buf (liOf_hasnext _ _), run_cons, walk_liOf_none]
      simp only [liOf_buf, restToks, restRep, or_false, not_false_eq_true, true_implies]
      cases hd : decode w with
      | fuel => exact absurd hd (decode_ne_fuel w)
      | panic e => simp
      | ok typ =>
        have hw : ReplacementChar ∉ w := fun hm => by
          rw [decode_replacement w hm] at hd; simp at hd
        simp only [Result.bind_ok, hw, false_implies, and_true]
        cases hs : c.switch emu { val := w, typ := typ } with
        | fuel => exact absurd hs (switch_ne_fuel emu c _)
        | panic e => simp
        | ok p =>
          simp only [Result.bind_ok]
          rw [loop_closed emu k _ _ _ (by simp [lexemiter.hasnext])]
          simp [compiler.run]
  | succ n ih =>
    intro r hr k c w buf hk
    obtain ⟨k, rfl⟩ : ∃ j, k = j + 1 := ⟨k - 1, by omega⟩
    cases r with
    | none => exact ih none (by simp [restLen]) (k + 1) c w buf (by omega)
    | some l =>
      have hl : l.length ≤ n := by simpa [restLen] using hr
      rw [loop_step emu _ c _ buf (liOf_hasnext _ _), run_cons, walk_liOf_some]
      simp only [liOf_buf, restToks, restRep]
      cases hd : decode w with
      | fuel => exact absurd hd (decode_ne_fuel w)
      | panic e => simp
      | ok typ =>
        have hw : ReplacementChar ∉ w := fun hm => by
          rw [decode_replacement w hm] at hd; simp at hd
        simp only [Result.bind_ok, hw, false_or]
        cases hsc : scan [] l with
        | fuel => exact absurd hsc (scan_ne_fuel l [])
        | panic e =>
          have hrep : ReplacementChar ∈ l := by
            by_contra hno
            obtain ⟨p, hp⟩ := scan_ok_of_no_replacement l [] hno
            rw [hp] at hsc; simp at hsc
          simp [hrep]
        | ok p =>
          obtain ⟨w1, r1⟩ := p
          obtain ⟨h1, h2, h3, h4⟩ := scan_spec l w1 r1 hsc
          simp only [Result.bind_ok]
          cases hs : c.switch emu { val := w, typ := typ } with
          | fuel => exact absurd hs (switch_ne_fuel emu c _)
          | panic e => simp
          | ok q =>
            simp only [Result.bind_ok]
            obtain ⟨ih1, ih2⟩ := ih r1 (by omega) k { q.2 with ino := q.2.ino + 1 } w1
              (buf ++ [q.1]) (by omega)
            dsimp only at ih1 ih2 ⊢
            constructor
            · intro hno
              rw [ih1 (fun hr1 => hno (h4 hr1)), h1]
              cases compiler.run emu { q.2 with ino := q.2.ino + 1 } (w1 :: restToks r1) <;> simp
            · intro hrep
              exact ih2 (h3 hrep)

/-- With no `U+FFFD` in the input, `compile` is the run over the tokens of the
input. -/
theorem compile_eq_run (emu : Emu) (c : compiler) (h : ReplacementChar ∉ c.inp) :
    c.compile emu = compiler.run emu c (tokens c.inp) := by
  unfold compiler.compile newlexemiter
  rw [newruneiter_eq]
  simp only [Result.bind_ok, lexemiter.walk, Bool.false_eq_true, if_false]
  have hk : c.inp.length + 1 ≤ (riOf c.inp).inp.length + 2 := by
    rw [riOf_inp_length]; omega
  rw [walkloop_eq c.inp _ [] false false false hk]
  obtain ⟨p, hp⟩ := scan_ok_of_no_replacement c.inp [] h
  obtain ⟨w, r⟩ := p
  obtain ⟨h1, h2, h3, h4⟩ := scan_spec c.inp w r hp
  have hli : ({ (match r with
        | none =>
          ({ runeiter := riOf [], opened := false, closed := false, exhausted := true,
             buf := w } : lexemiter)
        | some r =>
          { runeiter := riOf r, opened := false, closed := false, exhausted := false,
            buf := w }) with opened := true } : lexemiter) = liOf w r := by
    cases r <;> rfl
  simp only [hp, Result.bind_ok, hli]
  rw [(loop_spec emu c.inp.length r (by omega) _ c w [] (le_refl _)).1 (fun hr => h (h4 hr)), h1]
  cases compiler.run emu c (w :: restToks r) <;> simp

/-- With a `U+FFFD` anywhere in the input, `compile` panics. -/
theorem compile_panic_of_replacement (emu : Emu) (c : compiler) (h : ReplacementChar ∈ c.inp) :
    ∃ e, c.compile emu = .panic e := by
  unfold compiler.compile newlexemiter
  rw [newruneiter_eq]
  simp only [Result.bind_ok, lexemiter.walk, Bool.false_eq_true, if_false]
  have hk : c.inp.length + 1 ≤ (riOf c.inp).inp.length + 2 := by
    rw [riOf_inp_length]; omega
  rw [walkloop_eq c.inp _ [] false false false hk]
  cases hsc : scan [] c.inp with
  | fuel => exact absurd hsc (scan_ne_fuel _ [])
  | panic e => exact ⟨e, by simp⟩
  | ok p =>
    obtain ⟨w, r⟩ := p
    obtain ⟨h1, h2, h3, h4⟩ := scan_spec c.inp w r hsc
    have hli : ({ (match r with
          | none =>
            ({ runeiter := riOf [], opened := false, closed := false, exhausted := true,
               buf := w } : lexemiter)
          | some r =>
            { runeiter := riOf r, opened := false, closed := false, exhausted := false,
              buf := w }) with opened := true } : lexemiter) = liOf w r := by
      cases r <;> rfl
    simp only [Result.bind_ok, hli]
    exact (loop_spec emu c.inp.length r (by omega) _ c w [] (le_refl _)).2 (h3 h)

/-! ## One turn of the loop, by the kind of the token -/

theorem decode_cases (w : List Char) (t : Nat) (h : decode w = .ok t) :
    t = _INSTRUCTION ∨ t = _INTEGER ∨ t = _LABEL ∨ t = _LABELREF := by
  unfold decode at h
  split at h
  · simp at h; simp [h]
  · split at h
    · simp at h; simp [h]
    · cases h1 : islabel w with
      | fuel => simp [h1] at h
      | panic e => simp [h1] at h
      | ok isl =>
        cases isl with
        | true => simp [h1] at h; simp [h]
        | false =>
          cases h2 : islabelref w with
          | fuel => simp [h1, h2] at h
          | panic e => simp [h1, h2] at h
          | ok isr =>
            cases isr with
            | true => simp [h1, h2] at h; simp [h]
            | false => simp [h1, h2] at h

theorem decode_nil : decode [] = .ok _INTEGER := by decide

theorem turn_of_instruction (emu : Emu) (c : compiler) (w : List Char)
    (h : decode w = .ok _INSTRUCTION) :
    c.turn emu w =
      (c.compileinstr emu w).bind fun a => .ok (a, { c with ino := c.ino + 1 }) := by
  simp only [compiler.turn, h, Result.bind_ok, compiler.switch, if_true]
  cases c.compileinstr emu w <;> simp

theorem turn_of_integer (emu : Emu) (c : compiler) (w : List Char)
    (h : decode w = .ok _INTEGER) :
    c.turn emu w =
      (c.compileint w).bind fun a => .ok (a, { c with ino := c.ino + 1 }) := by
  simp only [compiler.turn, h, Result.bind_ok, compiler.switch]
  simp only [show ¬ _INTEGER = _INSTRUCTION by decide, if_false, if_true]
  cases c.compileint w <;> simp

theorem turn_of_label (emu : Emu) (c : compiler) (w : List Char)
    (h : decode w = .ok _LABEL) :
    c.turn emu w =
      match c.labels.lookup w.dropLast with
      | some _ => .panic (.overwriteLabel w.dropLast)
      | none =>
        .ok (emu.NOP, { c with
          labels := (w.dropLast, (c.ino % 4294967296).toNat) :: c.labels, ino := c.ino + 1 }) := by
  have hw : w ≠ [] := by
    intro hw
    rw [hw, decode_nil] at h
    exact absurd h (by decide)
  simp only [compiler.turn, h, Result.bind_ok, compiler.switch]
  simp only [show ¬ _LABEL = _INSTRUCTION by decide, show ¬ _LABEL = _INTEGER by decide,
    if_false, if_true, compiler.compilelabel, hw]
  cases c.labels.lookup w.dropLast <;> simp

theorem turn_of_labelref (emu : Emu) (c : compiler) (w : List Char)
    (h : decode w = .ok _LABELREF) :
    c.turn emu w =
      match c.labels.lookup w.tail with
      | some v => .ok (v, { c with ino := c.ino + 1 })
      | none => .panic (.unexistantLabel w.tail) := by
  have hw : w ≠ [] := by
    intro hw
    rw [hw, decode_nil] at h
    exact absurd h (by decide)
  simp only [compiler.turn, h, Result.bind_ok, compiler.switch]
  simp only [show ¬ _LABELREF = _INSTRUCTION by decide, show ¬ _LABELREF = _INTEGER by decide,
    show ¬ _LABELREF = _LABEL by decide, if_false, if_true, compiler.compilelabelref]
  cases w with
  | nil => exact absurd rfl hw
  | cons x raw =>
    simp only [List.tail_cons]
    cases c.labels.lookup raw <;> simp

/-- What a turn that returns leaves behind: the counter is one up, the input
untouched, and the table has grown by the entry of a label definition. -/
theorem turn_ok_state (emu : Emu) (c c1 : compiler) (w : List Char) (a : Nat)
    (h : c.turn emu w = .ok (a, c1)) :
    c1.ino = c.ino + 1 ∧ c1.inp = c.inp ∧ c1.labels = labeldefs c.ino [w] ++ c.labels := by
  cases hd : decode w with
  | fuel => simp [compiler.turn, hd] at h
  | panic e => simp [compiler.turn, hd] at h
  | ok t =>
    rcases decode_cases w t hd with rfl | rfl | rfl | rfl
    · rw [turn_of_instruction emu c w hd] at h
      cases hc : c.compileinstr emu w with
      | ok v =>
        simp only [hc, Result.bind_ok, Result.ok.injEq, Prod.mk.injEq] at h
        obtain ⟨_, rfl⟩ := h
        simp [labeldefs, hd, show ¬ _INSTRUCTION = _LABEL by decide]
      | panic e => simp [hc] at h
      | fuel => simp [hc] at h
    · rw [turn_of_integer emu c w hd] at h
      cases hc : c.compileint w with
      | ok v =>
        simp only [hc, Result.bind_ok, Result.ok.injEq, Prod.mk.injEq] at h
        obtain ⟨_, rfl⟩ := h
        simp [labeldefs, hd, show ¬ _INTEGER = _LABEL by decide]
      | panic e => simp [hc] at h
      | fuel => simp [hc] at h
    · rw [turn_of_label emu c w hd] at h
      cases hc : c.labels.lookup w.dropLast with
      | some v => simp [hc] at h
      | none =>
        simp only [hc, Result.ok.injEq, Prod.mk.injEq] at h
        obtain ⟨_, rfl⟩ := h
        simp [labeldefs, hd]
    · rw [turn_of_labelref emu c w hd] at h
      cases hc : c.labels.lookup w.tail with
      | none => simp [hc] at h
      | some v =>
        simp only [hc, Result.ok.injEq, Prod.mk.injEq] at h
        obtain ⟨_, rfl⟩ := h
        simp [labeldefs, hd, show ¬ _LABELREF = _LABEL by decide]

/-! ## The run over a list of words -/

theorem run_cons_ok (emu : Emu) (c c2 : compiler) (w : List Char) (ws : List (List Char))
    (out : List Nat) (h : compiler.run emu c (w :: ws) = .ok (out, c2)) :
    ∃ a c1 out1, c.turn emu w = .ok (a, c1) ∧ compiler.run emu c1 ws = .ok (out1, c2) ∧
      out = a :: out1 := by
  simp only [compiler.run] at h
  cases ht : c.turn emu w with
  | fuel => simp [ht] at h
  | panic e => simp [ht] at h
  | ok p =>
    obtain ⟨a, c1⟩ := p
    simp only [ht, Result.bind_ok] at h
    cases hr : compiler.run emu c1 ws with
    | fuel => simp [hr] at h
    | panic e => simp [hr] at h
    | ok q =>
      obtain ⟨out1, c3⟩ := q
      simp only [hr, Result.bind_ok, Result.ok.injEq, Prod.mk.injEq] at h
      obtain ⟨rfl, rfl⟩ := h
      exact ⟨a, c1, out1, rfl, hr, rfl⟩

theorem labeldefs_append (l1 l2 : List (List Char)) : ∀ ino : Int,
    labeldefs ino (l1 ++ l2) = labeldefs (ino + l1.length) l2 ++ labeldefs ino l1 := by
  induction l1 with
  | nil => intro ino; simp [labeldefs]
  | cons w ws ih =>
    intro ino
    have e : ino + 1 + (ws.length : Int) = ino + ((ws.length + 1 : Nat) : Int) := by
      push_cast; ring
    simp only [List.cons_append, labeldefs, List.length_cons, List.append_eq]
    rw [ih (ino + 1), e]
    split <;> simp

theorem run_ok_state (emu : Emu) (ws : List (List Char)) : ∀ (c c2 : compiler) (out : List Nat),
    compiler.run emu c ws = .ok (out, c2) →
    out.length = ws.length ∧ c2.ino = c.ino + ws.length ∧ c2.inp = c.inp ∧
      c2.labels = labeldefs c.ino ws ++ c.labels := by
  induction ws with
  | nil =>
    intro c c2 out h
    simp only [compiler.run, Result.ok.injEq, Prod.mk.injEq] at h
    obtain ⟨rfl, rfl⟩ := h
    simp [labeldefs]
  | cons w ws ih =>
    intro c c2 out h
    obtain ⟨a, c1, out1, h1, h2, rfl⟩ := run_cons_ok emu c c2 w ws out h
    obtain ⟨e1, e2, e3⟩ := turn_ok_state emu c c1 w a h1
    obtain ⟨i1, i2, i3, i4⟩ := ih c1 c2 out1 h2
    refine ⟨by simp [i1], by rw [i2, e1, List.length_cons]; push_cast; ring, by rw [i3, e2], ?_⟩
    rw [i4, e3, e1]
    have := labeldefs_append [w] ws c.ino
    simp only [List.singleton_append, List.length_singleton, Nat.cast_one] at this
    rw [this, List.append_assoc]

theorem run_append (emu : Emu) (xs ys : List (List Char)) : ∀ c : compiler,
    compiler.run emu c (xs ++ ys) =
      (compiler.run emu c xs).bind fun p =>
        (compiler.run emu p.2 ys).bind fun q => .ok (p.1 ++ q.1, q.2) := by
  induction xs with
  | nil =>
    intro c
    simp only [List.nil_append, compiler.run, Result.bind_ok]
    cases compiler.run emu c ys <;> simp
  | cons w ws ih =>
    intro c
    simp only [List.cons_append, compiler.run, List.append_eq]
    cases c.turn emu w with
    | fuel => simp
    | panic e => simp
    | ok p =>
      simp only [Result.bind_ok]
      rw [ih]
      cases compiler.run emu p.2 ws with
      | fuel => simp
      | panic e => simp
      | ok q =>
        simp only [Result.bind_ok]
        cases compiler.run emu q.2 ys <;> simp

theorem run_ne_fuel (emu : Emu) (ws : List (List Char)) : ∀ c : compiler,
    compiler.run emu c ws ≠ .fuel := by
  induction ws with
  | nil => intro c; simp [compiler.run]
  | cons w ws ih =>
    intro c
    rw [run_cons]
    cases hd : decode w with
    | fuel => exact absurd hd (decode_ne_fuel w)
    | panic e => simp
    | ok t =>
      simp only [Result.bind_ok]
      cases hs : c.switch emu { val := w, typ := t } with
      | fuel => exact absurd hs (switch_ne_fuel emu c _)
      | panic e => simp
      | ok p =>
        simp only [Result.bind_ok]
        cases hr : compiler.run emu { p.2 with ino := p.2.ino + 1 } ws with
        | fuel => exact absurd hr (ih _)
        | panic e => simp
        | ok q => simp

/-! ## Panics of `compile` from a panic of one turn -/

theorem split_at {α : Type} (l : List α) (i : Nat) (w : α) (h : l[i]? = some w) :
    l = l.take i ++ w :: l.drop (i + 1) ∧ (l.take i).length = i := by
  obtain ⟨hi, rfl⟩ := List.getElem?_eq_some_iff.mp h
  constructor
  · rw [← List.drop_eq_getElem_cons hi, List.take_append_drop]
  · simp [List.length_take]; omega

theorem Compile_eq (emu : Emu) (inp : List Char) :
    Compile emu inp = (compiler.compile emu { inp := inp, labels := [], ino := 1 }).map Prod.fst :=
  rfl

/-- When the turn on one token panics in whatever state the run over the
tokens before it ends, `compile` panics. -/
theorem compile_panic_of_turn (emu : Emu) (c : compiler) (pre post : List (List Char))
    (w : List Char) (htok : tokens c.inp = pre ++ w :: post)
    (h : ∀ out c1, compiler.run emu c pre = .ok (out, c1) → ∃ e, c1.turn emu w = .panic e) :
    ∃ e, c.compile emu = .panic e := by
  by_cases hrep : ReplacementChar ∈ c.inp
  · exact compile_panic_of_replacement emu c hrep
  · rw [compile_eq_run emu c hrep, htok, run_append]
    cases hr : compiler.run emu c pre with
    | fuel => exact absurd hr (run_ne_fuel emu pre c)
    | panic e => exact ⟨e, by simp⟩
    | ok p =>
      obtain ⟨e, he⟩ := h p.1 p.2 hr
      exact ⟨e, by simp [compiler.run, he]⟩

theorem Compile_panic_of_turn (emu : Emu) (inp : List Char) (pre post : List (List Char))
    (w : List Char) (htok : tokens inp = pre ++ w :: post)
    (h : ∀ out c1, compiler.run emu { inp := inp, labels := [], ino := 1 } pre = .ok (out, c1) →
      ∃ e, c1.turn emu w = .panic e) :
    ∃ e, Compile emu inp = .panic e := by
  obtain ⟨e, he⟩ := compile_panic_of_turn emu { inp := inp, labels := [], ino := 1 } pre post w
    htok h
  exact ⟨e, by simp [Compile_eq, he, Result.map]⟩

theorem mem_labeldefs (l : List (List Char)) : ∀ (ino : Int) (x : List Char) (v : Nat),
    (x, v) ∈ labeldefs ino l ↔
      ∃ (j : Nat) (w : List Char), l[j]? = some w ∧ decode w = .ok _LABEL ∧ w.dropLast = x ∧
        v = ((ino + (j : Int)) % 4294967296).toNat := by
  induction l with
  | nil => intro ino x v; simp [labeldefs]
  | cons a l ih =>
    intro ino x v
    have key : (x, v) ∈ labeldefs ino (a :: l) ↔
        (x, v) ∈ labeldefs (ino + 1) l ∨
          (decode a = .ok _LABEL ∧ a.dropLast = x ∧ v = (ino % 4294967296).toNat) := by
      simp only [labeldefs]
      split
      · rename_i hd
        simp only [List.mem_append, List.mem_singleton, Prod.mk.injEq, hd, true_and]
        constructor
        · rintro (h | ⟨h1, h2⟩)
          · exact Or.inl h
          · exact Or.inr ⟨h1.symm, h2⟩
        · rintro (h | ⟨h1, h2⟩)
          · exact Or.inl h
          · exact Or.inr ⟨h1.symm, h2⟩
      · rename_i hd
        simp [hd]
    rw [key, ih]
    constructor
    · rintro (⟨j, w, h1, h2, h3, h4⟩ | ⟨h2, h3, h4⟩)
      · refine ⟨j + 1, w, by simpa using h1, h2, h3, ?_⟩
        rw [h4]; congr 2; push_cast; ring
      · exact ⟨0, a, by simp, h2, h3, by simpa using h4⟩
    · rintro ⟨j, w, h1, h2, h3, h4⟩
      cases j with
      | zero =>
        simp only [List.getElem?_cons_zero, Option.some.injEq] at h1
        subst h1
        exact Or.inr ⟨h2, h3, by simpa using h4⟩
      | succ j =>
        refine Or.inl ⟨j, w, by simpa using h1, h2, h3, ?_⟩
        rw [h4]; congr 2; push_cast; ring

theorem lookup_eq_none_of_not_mem (L : List (List Char × Nat)) (x : List Char)
    (h : ∀ v, (x, v) ∉ L) : L.lookup x = none := by
  rw [List.lookup_eq_none_iff]
  intro p hp
  simp only [bne_iff_ne, ne_eq]
  intro hx
  apply h p.2
  rw [hx]
  exact hp

theorem lookup_ne_none_of_mem (L : List (List Char × Nat)) (x : List Char) (v : Nat)
    (h : (x, v) ∈ L) : L.lookup x ≠ none := by
  intro hn
  rw [List.lookup_eq_none_iff] at hn
  have := hn (x, v) h
  simp at this

/-! ## The claims on failures -/

/-- C10.  Invalid code point is fatal: on every input that has the replacement
character `U+FFFD` at any position, the last one included, `Compile` panics. -/
theorem C10_invalid_code_point_is_fatal (emu : Emu) (inp : List Char)
    (h : ReplacementChar ∈ inp) : ∃ e, Compile emu inp = .panic e := by
  obtain ⟨e, he⟩ := compile_panic_of_replacement emu { inp := inp, labels := [], ino := 1 } h
  exact ⟨e, by simp [Compile_eq, he, Result.map]⟩

/-- C10 at the input of `a` followed by `U+FFFD`, the last position. -/
theorem C10_witness :
    ReplacementChar ∈ ['a', ReplacementChar] ∧
      ∃ e, Compile emu0 ['a', ReplacementChar] = .panic e :=
  ⟨by decide, C10_invalid_code_point_is_fatal emu0 ['a', ReplacementChar] (by decide)⟩

/-- C6.  Undefined or forward label reference: when the token at position `i`
is a label reference and no token before it is a label definition of the name
it refers to, `Compile` panics. -/
theorem C6_undefined_label_reference_fails (emu : Emu) (inp : List Char) (i : Nat)
    (w : List Char) (hi : (tokens inp)[i]? = some w) (href : decode w = .ok _LABELREF)
    (hno : ∀ j d, j < i → (tokens inp)[j]? = some d → decode d = .ok _LABEL →
      d.dropLast ≠ w.tail) :
    ∃ e, Compile emu inp = .panic e := by
  obtain ⟨hsplit, hlen⟩ := split_at (tokens inp) i w hi
  apply Compile_panic_of_turn emu inp _ _ w hsplit
  intro out c1 hrun
  obtain ⟨-, -, -, hlab⟩ := run_ok_state emu _ _ _ _ hrun
  simp only [List.append_nil] at hlab
  rw [turn_of_labelref emu c1 w href]
  have hnone : c1.labels.lookup w.tail = none := by
    apply lookup_eq_none_of_not_mem
    intro v hv
    rw [hlab, mem_labeldefs] at hv
    obtain ⟨j, d, h1, h2, h3, -⟩ := hv
    have hj : j < i := by
      have := (List.getElem?_eq_some_iff.mp h1).1
      rw [hlen] at this
      exact this
    have h1' : (tokens inp)[j]? = some d := by
      rw [List.getElem?_take_of_lt hj] at h1
      exact h1
    exact hno j d hj h1' h2 h3
  rw [hnone]
  exact ⟨_, rfl⟩

/-- C6 at the input `"&a a:"`, a forward reference. -/
theorem C6_witness : ∃ e, Compile emu0 "&a a:".toList = .panic e :=
  C6_undefined_label_reference_fails emu0 "&a a:".toList 0 "&a".toList (by decide) (by decide)
    (by intro j d hj; omega)

/-- Two label definitions of one name make `Compile` panic. -/
theorem duplicate_label_panics (emu : Emu) (inp : List Char) (i j : Nat)
    (a b : List Char) (hij : i < j) (hi : (tokens inp)[i]? = some a)
    (hj : (tokens inp)[j]? = some b) (ha : decode a = .ok _LABEL) (hb : decode b = .ok _LABEL)
    (hname : a.dropLast = b.dropLast) :
    ∃ e, Compile emu inp = .panic e := by
  obtain ⟨hsplit, hlen⟩ := split_at (tokens inp) j b hj
  apply Compile_panic_of_turn emu inp _ _ b hsplit
  intro out c1 hrun
  obtain ⟨-, -, -, hlab⟩ := run_ok_state emu _ _ _ _ hrun
  simp only [List.append_nil] at hlab
  rw [turn_of_label emu c1 b hb]
  have hmem : (b.dropLast, (((1 : Int) + i) % 4294967296).toNat) ∈ c1.labels := by
    rw [hlab, mem_labeldefs]
    refine ⟨i, a, ?_, ha, hname, rfl⟩
    rw [List.getElem?_take_of_lt hij]
    exact hi
  cases hl : c1.labels.lookup b.dropLast with
  | none => exact absurd hl (lookup_ne_none_of_mem _ _ _ hmem)
  | some v => exact ⟨_, rfl⟩

/-- C7.  Duplicate label: when two tokens at different positions are label
definitions of the same name, `Compile` panics (it returns no output sequence
and the second definition does not overwrite the first). -/
theorem C7_duplicate_label_fails (emu : Emu) (inp : List Char) (i j : Nat)
    (a b : List Char) (hij : i < j) (hi : (tokens inp)[i]? = some a)
    (hj : (tokens inp)[j]? = some b) (ha : decode a = .ok _LABEL) (hb : decode b = .ok _LABEL)
    (hname : a.dropLast = b.dropLast) :
    ∃ e, Compile emu inp = .panic e :=
  duplicate_label_panics emu inp i j a b hij hi hj ha hb hname

/-- C7 at the input `"a: a:"`. -/
theorem C7_witness : ∃ e, Compile emu0 "a: a:".toList = .panic e :=
  C7_duplicate_label_fails emu0 "a: a:".toList 0 1 "a:".toList "a:".toList (by decide)
    (by decide) (by decide) (by decide) (by decide) (by decide)

/-- C8.  A word with a capital ASCII letter whose lowered form is no mnemonic
is refused by `decode` with the decode panic, and `Compile` panics on every
input that has such a word among its tokens. -/
theorem C8_uppercase_non_mnemonic_fails (w : List Char)
    (hup : ∃ c ∈ w, 'A' ≤ c ∧ c ≤ 'Z') (hlow : ToLower w ∉ iset) :
    decode w = .panic .unknownFormat ∧
      ∀ (emu : Emu) (inp : List Char), w ∈ tokens inp → ∃ e, Compile emu inp = .panic e := by
  obtain ⟨c, hc, h1, h2⟩ := hup
  rw [char_le_iff] at h1 h2
  have e1 : 'A'.toNat = 65 := by decide
  have e2 : 'Z'.toNat = 90 := by decide
  have hd : decode w = .panic .unknownFormat := by
    apply decode_panic_of_mem w c hc
    · rw [char_le_iff, char_le_iff]
      have e3 : '0'.toNat = 48 := by decide
      have e4 : '9'.toNat = 57 := by decide
      omega
    · rw [Bool.eq_false_iff]
      intro h
      exact hlow ((isinstruction_iff w).mp h)
    · rw [char_le_iff, char_le_iff]
      have e3 : 'a'.toNat = 97 := by decide
      omega
    · rw [Ne, char_eq_iff]
      have e3 : '_'.toNat = 95 := by decide
      omega
    · rw [Ne, char_eq_iff]
      have e3 : ':'.toNat = 58 := by decide
      omega
    · rw [Ne, char_eq_iff]
      have e3 : '&'.toNat = 38 := by decide
      omega
  refine ⟨hd, ?_⟩
  intro emu inp hmem
  obtain ⟨k, hk⟩ := List.getElem?_of_mem hmem
  obtain ⟨hsplit, -⟩ := split_at (tokens inp) k w hk
  apply Compile_panic_of_turn emu inp _ _ w hsplit
  intro out c1 _
  exact ⟨.unknownFormat, by simp [compiler.turn, hd]⟩

/-- C8 at the word `"Xyz"`. -/
theorem C8_witness :
    decode "Xyz".toList = .panic .unknownFormat ∧
      ∀ (emu : Emu) (inp : List Char), "Xyz".toList ∈ tokens inp →
        ∃ e, Compile emu inp = .panic e :=
  C8_uppercase_non_mnemonic_fails "Xyz".toList ⟨'X', by decide, by decide, by decide⟩ (by decide)

/-! ## Words joined by single spaces -/

theorem tokens_of_no_bp (w : List Char) (h : ∀ c ∈ w, runein c breakpoints = false) :
    tokens w = [w] := by
  induction w with
  | nil => simp [tokens]
  | cons c cs ih =>
    rw [tokens_cons_of_not_bp c cs (h c (by simp)), ih (fun d hd => h d (by simp [hd]))]
    simp

theorem tokens_append_space (w rest : List Char) (h : ∀ c ∈ w, runein c breakpoints = false) :
    tokens (w ++ ' ' :: rest) = w :: tokens rest := by
  induction w with
  | nil => simp [tokens, runein, breakpoints]
  | cons c cs ih =>
    rw [List.cons_append, tokens_cons_of_not_bp c _ (h c (by simp)),
      ih (fun d hd => h d (by simp [hd]))]
    simp

theorem intercalate_cons_cons (x y : List Char) (zs : List (List Char)) :
    [' '].intercalate (x :: y :: zs) = x ++ ' ' :: [' '].intercalate (y :: zs) := by
  simp [List.intercalate, List.intersperse]

theorem intercalate_singleton (x : List Char) : [' '].intercalate [x] = x := by
  simp [List.intercalate, List.intersperse]

/-- The tokens of words without a breakpoint joined by single spaces are the
words. -/
theorem tokens_intercalate (ws : List (List Char)) (hne : ws ≠ [])
    (h : ∀ w ∈ ws, ∀ c ∈ w, runein c breakpoints = false) :
    tokens ([' '].intercalate ws) = ws := by
  induction ws with
  | nil => exact absurd rfl hne
  | cons x xs ih =>
    cases xs with
    | nil => rw [intercalate_singleton]; exact tokens_of_no_bp x (h x (by simp))
    | cons y zs =>
      rw [intercalate_cons_cons, tokens_append_space x _ (h x (by simp)),
        ih (by simp) (fun w hw => h w (List.mem_cons_of_mem _ hw))]

theorem mem_intercalate (ws : List (List Char)) (c : Char)
    (h : c ∈ [' '].intercalate ws) : c = ' ' ∨ ∃ w ∈ ws, c ∈ w := by
  induction ws with
  | nil => simp [List.intercalate, List.intersperse] at h
  | cons x xs ih =>
    cases xs with
    | nil =>
      rw [intercalate_singleton] at h
      exact Or.inr ⟨x, by simp, h⟩
    | cons y zs =>
      rw [intercalate_cons_cons] at h
      rcases List.mem_append.mp h with h | h
      · exact Or.inr ⟨x, by simp, h⟩
      · rcases List.mem_cons.mp h with h | h
        · exact Or.inl h
        · rcases ih h with h | ⟨w, hw, hc⟩
          · exact Or.inl h
          · exact Or.inr ⟨w, List.mem_cons_of_mem _ hw, hc⟩

/-- On words without breakpoint and without `U+FFFD` joined by single spaces,
`compile` is the run over the words. -/
theorem compile_intercalate (emu : Emu) (ws : List (List Char)) (hne : ws ≠ [])
    (h : ∀ w ∈ ws, ∀ c ∈ w, runein c breakpoints = false ∧ c ≠ ReplacementChar)
    (labels : List (List Char × Nat)) (ino : Int) :
    compiler.compile emu { inp := [' '].intercalate ws, labels := labels, ino := ino } =
      compiler.run emu { inp := [' '].intercalate ws, labels := labels, ino := ino } ws := by
  have hrep : ReplacementChar ∉ [' '].intercalate ws := by
    intro hm
    rcases mem_intercalate ws _ hm with hm | ⟨w, hw, hc⟩
    · exact absurd hm (by decide)
    · exact (h w hw _ hc).2 rfl
  rw [compile_eq_run emu _ hrep]
  simp only
  rw [tokens_intercalate ws hne (fun w hw c hc => (h w hw c hc).1)]

/-! ## Integers -/

theorem digit_facts (c : Char) (h : '0' ≤ c ∧ c ≤ '9') :
    c ≠ '+' ∧ c ≠ '-' ∧ runein c breakpoints = false ∧ c ≠ ReplacementChar := by
  obtain ⟨h1, h2⟩ := h
  rw [char_le_iff] at h1 h2
  have e1 : '0'.toNat = 48 := by decide
  have e2 : '9'.toNat = 57 := by decide
  refine ⟨?_, ?_, ?_, ?_⟩
  · rw [Ne, char_eq_iff]
    have e3 : '+'.toNat = 43 := by decide
    omega
  · rw [Ne, char_eq_iff]
    have e3 : '-'.toNat = 45 := by decide
    omega
  · rw [Bool.eq_false_iff, Ne, runein_breakpoints, char_eq_iff, char_eq_iff]
    have e3 : '\n'.toNat = 10 := by decide
    have e4 : ' '.toNat = 32 := by decide
    omega
  · rw [Ne, char_eq_iff]
    have e3 : ReplacementChar.toNat = 65533 := by decide
    omega

/-- Go `ParseInt` on a non-empty string of digits: a range error from `2^31` on,
the base-10 value below. -/
theorem ParseInt_digits (w : List Char) (hne : w ≠ []) (hd : ∀ c ∈ w, '0' ≤ c ∧ c ≤ '9') :
    ParseInt w = if decimal w ≥ 2147483648 then none else some (decimal w : Int) := by
  cases w with
  | nil => exact absurd rfl hne
  | cons c cs =>
    obtain ⟨h1, h2, -, -⟩ := digit_facts c (hd c (by simp))
    have hall : (c :: cs).all (fun d => decide ('0' ≤ d ∧ d ≤ '9')) = true := by
      rw [List.all_eq_true]
      intro d hmem
      simpa using hd d hmem
    simp only [ParseInt, h1, h2, or_self, if_false, hall, not_true_eq_false]
    have hneg : (c == '-') = false := by simpa using h2
    simp [hneg]

theorem compileint_digits (c : compiler) (w : List Char) (hne : w ≠ [])
    (hd : ∀ c ∈ w, '0' ≤ c ∧ c ≤ '9') :
    c.compileint w =
      if decimal w ≥ 2147483648 then .panic .parseInt else .ok (decimal w) := by
  simp only [compiler.compileint, ParseInt_digits w hne hd]
  by_cases h : decimal w ≥ 2147483648
  · simp [h]
  · simp only [h, if_false, Result.ok.injEq]
    omega

theorem compileint_nil (c : compiler) : c.compileint [] = .panic .parseInt := rfl

/-- C5.  Integer range error, raises-iff: on a word of digits only,
`compileint` panics exactly when the word is empty or its base-10 value
exceeds `2147483647`; `"2147483647"` compiles to `[2147483647]` and `Compile`
panics on `"2147483648"`. -/
theorem C5_integer_range_error_iff (emu : Emu) :
    (∀ (c : compiler) (word : List Char), isinteger word = true →
      ((∃ e, c.compileint word = .panic e) ↔ (word = [] ∨ decimal word > 2147483647))) ∧
    Compile emu "2147483647".toList = .ok [2147483647] ∧
    Compile emu "2147483648".toList = .panic .parseInt := by
  refine ⟨?_, by rfl, by rfl⟩
  intro c word hint
  rw [isinteger_iff] at hint
  by_cases hne : word = []
  · subst hne
    simp [compileint_nil]
  · rw [compileint_digits c word hne hint]
    by_cases hv : decimal word ≥ 2147483648
    · simp only [hv, if_true, hne, false_or]
      constructor
      · intro _; omega
      · intro _; exact ⟨_, rfl⟩
    · simp only [hv, if_false, hne, false_or]
      constructor
      · rintro ⟨e, he⟩; simp at he
      · intro h; omega

/-- C5 at the word `"2147483648"`: it is an integer word, its value exceeds
`2^31 - 1`, and `compileint` panics on it. -/
theorem C5_witness :
    isinteger "2147483648".toList = true ∧
      ((∃ e, compiler.compileint { inp := [], labels := [], ino := 1 } "2147483648".toList
          = .panic e) ↔
        ("2147483648".toList = [] ∨ decimal "2147483648".toList > 2147483647)) :=
  ⟨by decide, (C5_integer_range_error_iff emu0).1 _ _ (by decide)⟩

theorem decode_of_isinteger (w : List Char) (h : isinteger w = true) :
    decode w = .ok _INTEGER := by
  simp [decode, h]

/-- The run over words of digits whose values fit: the values, in order. -/
theorem run_integers (emu : Emu) (ws : List (List Char)) : ∀ (c : compiler),
    (∀ w ∈ ws, w ≠ [] ∧ (∀ d ∈ w, '0' ≤ d ∧ d ≤ '9') ∧ decimal w ≤ 2147483647) →
    compiler.run emu c ws = .ok (ws.map decimal, { c with ino := c.ino + ws.length }) := by
  induction ws with
  | nil => intro c _; simp [compiler.run]
  | cons w ws ih =>
    intro c h
    obtain ⟨h1, h2, h3⟩ := h w (by simp)
    have hdec : decode w = .ok _INTEGER := decode_of_isinteger w ((isinteger_iff w).mpr h2)
    have hv : ¬ decimal w ≥ 2147483648 := by omega
    simp only [compiler.run, turn_of_integer emu c w hdec, compileint_digits c w h1 h2, hv,
      if_false, Result.bind_ok]
    rw [ih _ (fun x hx => h x (List.mem_cons_of_mem _ hx))]
    simp only [Result.bind_ok, List.map_cons, List.length_cons]
    congr 3
    push_cast
    ring

/-- C4.  A stream of non-empty digit strings (leading zeros allowed) whose
base-10 values do not exceed `2147483647`, joined by single spaces, compiles
to the list of the values in order; a single such token compiles to the
one-element sequence of its value. -/
theorem C4_digit_strings_compile_to_values (emu : Emu) (ws : List (List Char)) (hne : ws ≠ [])
    (h : ∀ w ∈ ws, w ≠ [] ∧ (∀ d ∈ w, '0' ≤ d ∧ d ≤ '9') ∧ decimal w ≤ 2147483647) :
    Compile emu ([' '].intercalate ws) = .ok (ws.map decimal) := by
  have hch : ∀ w ∈ ws, ∀ c ∈ w, runein c breakpoints = false ∧ c ≠ ReplacementChar := by
    intro w hw c hc
    obtain ⟨-, -, h3, h4⟩ := digit_facts c ((h w hw).2.1 c hc)
    exact ⟨h3, h4⟩
  rw [Compile_eq, compile_intercalate emu ws hne hch, run_integers emu ws _ h]
  simp [Result.map]

/-- C4 at the stream `"1 2 3 123 456"` and at the single token `"007"`. -/
theorem C4_witness :
    Compile emu0 "1 2 3 123 456".toList = .ok [1, 2, 3, 123, 456] ∧
      Compile emu0 "007".toList = .ok [7] :=
  ⟨C4_digit_strings_compile_to_values emu0
      ["1".toList, "2".toList, "3".toList, "123".toList, "456".toList] (by decide) (by decide),
    C4_digit_strings_compile_to_values emu0 ["007".toList] (by decide) (by decide)⟩

/-! ## Mnemonics -/

theorem strmap_keys (emu : Emu) : (strmap emu).map Prod.fst = iset := rfl

theorem lookup_of_mem_keys (L : List (List Char × Nat)) (x : List Char)
    (h : x ∈ L.map Prod.fst) : ∃ v, L.lookup x = some v := by
  obtain ⟨p, hp, rfl⟩ := List.mem_map.mp h
  cases hl : L.lookup p.1 with
  | none => exact absurd hl (lookup_ne_none_of_mem L p.1 p.2 hp)
  | some v => exact ⟨v, rfl⟩

/-- Every mnemonic begins with a small letter. -/
theorem iset_head : ∀ m ∈ iset, 'a' ≤ m.headD '0' ∧ m.headD '0' ≤ 'z' := by
  decide

theorem sameLetter_facts (a b : Char) (h : sameLetter a b = true)
    (hb : ('a' ≤ b ∧ b ≤ 'z') ∨ ('0' ≤ b ∧ b ≤ '9')) :
    toLowerRune a = b ∧ runein a breakpoints = false ∧ a ≠ ReplacementChar ∧
      (('a' ≤ b ∧ b ≤ 'z') → ¬ ('0' ≤ a ∧ a ≤ '9')) := by
  have e1 : 'A'.toNat = 65 := by decide
  have e2 : 'Z'.toNat = 90 := by decide
  have e3 : 'a'.toNat = 97 := by decide
  have e4 : 'z'.toNat = 122 := by decide
  have e5 : '0'.toNat = 48 := by decide
  have e6 : '9'.toNat = 57 := by decide
  have e7 : '\n'.toNat = 10 := by decide
  have e8 : ' '.toNat = 32 := by decide
  have e9 : ReplacementChar.toNat = 65533 := by decide
  have e10 : (Char.ofNat 0x130).toNat = 304 := by decide
  have e11 : (Char.ofNat 0x212A).toNat = 8490 := by decide
  simp only [char_le_iff] at hb
  simp only [sameLetter, Bool.or_eq_true, Bool.and_eq_true, beq_iff_eq, decide_eq_true_eq,
    char_le_iff] at h
  have hrange : (65 ≤ a.toNat ∧ a.toNat ≤ 90 ∧ b.toNat = a.toNat + 32) ∨ a = b := by
    rcases h with (h | h) | h
    · exact Or.inr h
    · exact Or.inl (by omega)
    · omega
  have hlow : toLowerRune a = b := by
    rcases hrange with ⟨h1, h2, h3⟩ | h1
    · have hup : 'A' ≤ a ∧ a ≤ 'Z' := by
        rw [char_le_iff, char_le_iff]; omega
      simp only [toLowerRune, hup, and_self, if_true]
      rw [← h3, Char.ofNat_toNat]
    · subst h1
      apply toLowerRune_of_not_upper_ascii
      · rw [char_le_iff, char_le_iff]; omega
      · rw [Ne, char_eq_iff]; omega
      · rw [Ne, char_eq_iff]; omega
  have hnat : (65 ≤ a.toNat ∧ a.toNat ≤ 90 ∧ b.toNat = a.toNat + 32) ∨ a.toNat = b.toNat := by
    rcases hrange with h1 | h1
    · exact Or.inl h1
    · exact Or.inr (by rw [h1])
  refine ⟨hlow, ?_, ?_, ?_⟩
  · rw [Bool.eq_false_iff, Ne, runein_breakpoints, char_eq_iff, char_eq_iff]
    omega
  · rw [Ne, char_eq_iff]
    omega
  · intro hl
    rw [char_le_iff, char_le_iff] at hl ⊢
    omega

theorem caseVariant_facts (w : List Char) : ∀ (m : List Char), caseVariant w m = true →
    (∀ c ∈ m, ('a' ≤ c ∧ c ≤ 'z') ∨ ('0' ≤ c ∧ c ≤ '9')) →
    ToLower w = m ∧ ∀ c ∈ w, runein c breakpoints = false ∧ c ≠ ReplacementChar := by
  induction w with
  | nil =>
    intro m h _
    cases m with
    | nil => simp [ToLower]
    | cons b bs => simp [caseVariant] at h
  | cons a as ih =>
    intro m h hm
    cases m with
    | nil => simp [caseVariant] at h
    | cons b bs =>
      simp only [caseVariant, Bool.and_eq_true] at h
      obtain ⟨h1, h2, h3, -⟩ := sameLetter_facts a b h.1 (hm b (by simp))
      obtain ⟨i1, i2⟩ := ih bs h.2 (fun c hc => hm c (List.mem_cons_of_mem _ hc))
      constructor
      · simp only [ToLower, List.map_cons, h1] at i1 ⊢
        rw [i1]
      · intro c hc
        rcases List.mem_cons.mp hc with rfl | hc
        · exact ⟨h2, h3⟩
        · exact i2 c hc

/-- A case variant of a mnemonic is decoded as an instruction and encoded by
the table entry of the mnemonic. -/
theorem variant_turn (emu : Emu) (c : compiler) (w m : List Char) (hm : m ∈ iset)
    (hv : caseVariant w m = true) :
    ∃ code, (strmap emu).lookup m = some code ∧
      c.turn emu w = .ok (code, { c with ino := c.ino + 1 }) := by
  obtain ⟨hlow, -⟩ := caseVariant_facts w m hv (iset_chars m hm)
  obtain ⟨code, hcode⟩ := lookup_of_mem_keys (strmap emu) m (by rw [strmap_keys]; exact hm)
  have hint : isinteger w = false := by
    have hb := iset_head m hm
    cases w with
    | nil =>
      cases m with
      | nil => exact absurd hb (by decide)
      | cons b bs => simp [caseVariant] at hv
    | cons a as =>
      cases m with
      | nil => simp [caseVariant] at hv
      | cons b bs =>
      simp only [List.headD_cons] at hb
      simp only [caseVariant, Bool.and_eq_true] at hv
      obtain ⟨-, -, -, h4⟩ := sameLetter_facts a b hv.1 (Or.inl hb)
      rw [Bool.eq_false_iff]
      intro hint
      exact h4 hb ((isinteger_iff _).mp hint a (by simp))
  have hinstr : isinstruction w = true := by
    rw [isinstruction_iff, hlow]; exact hm
  have hdec : decode w = .ok _INSTRUCTION := by
    simp [decode, hint, hinstr]
  refine ⟨code, hcode, ?_⟩
  rw [turn_of_instruction emu c w hdec]
  simp [compiler.compileinstr, hlow, hcode]

theorem run_variants (emu : Emu) (pairs : List (List Char × List Char)) : ∀ (c : compiler),
    (∀ p ∈ pairs, p.2 ∈ iset ∧ caseVariant p.1 p.2 = true) →
    ∃ codes, List.Forall₂ (fun p code => (strmap emu).lookup p.2 = some code) pairs codes ∧
      compiler.run emu c (pairs.map Prod.fst) =
        .ok (codes, { c with ino := c.ino + pairs.length }) := by
  induction pairs with
  | nil => intro c _; exact ⟨[], List.Forall₂.nil, by simp [compiler.run]⟩
  | cons p ps ih =>
    intro c h
    obtain ⟨code, h1, h2⟩ := variant_turn emu c p.1 p.2 (h p (by simp)).1 (h p (by simp)).2
    obtain ⟨codes, h3, h4⟩ := ih { c with ino := c.ino + 1 }
      (fun q hq => h q (List.mem_cons_of_mem _ hq))
    refine ⟨code :: codes, List.Forall₂.cons h1 h3, ?_⟩
    simp only [List.map_cons, compiler.run, h2, Result.bind_ok, h4, List.length_cons]
    congr 3
    push_cast
    ring

/-- The table of `compileinstr` gives every mnemonic the opcode constant of
its own name. -/
theorem strmap_lookup_eq_opcode (emu : Emu) :
    ∀ m ∈ iset, (strmap emu).lookup m = opcode emu m := by
  intro m hm
  simp only [iset, List.mem_cons, List.mem_singleton, List.not_mem_nil, or_false] at hm
  rcases hm with rfl | rfl | rfl | rfl | rfl | rfl | rfl | rfl | rfl | rfl | rfl | rfl | rfl |
    rfl | rfl | rfl | rfl | rfl | rfl | rfl | rfl <;> rfl

/-- The run over case variants of mnemonics emits, in order, the opcode
constant of each mnemonic. -/
theorem run_variants_opcode (emu : Emu) (pairs : List (List Char × List Char)) :
    ∀ (c : compiler), (∀ p ∈ pairs, p.2 ∈ iset ∧ caseVariant p.1 p.2 = true) →
    compiler.run emu c (pairs.map Prod.fst) =
      .ok (pairs.filterMap (fun p => opcode emu p.2),
        { c with ino := c.ino + pairs.length }) := by
  induction pairs with
  | nil => intro c _; simp [compiler.run]
  | cons p ps ih =>
    intro c h
    obtain ⟨code, h1, h2⟩ := variant_turn emu c p.1 p.2 (h p (by simp)).1 (h p (by simp)).2
    rw [strmap_lookup_eq_opcode emu p.2 (h p (by simp)).1] at h1
    simp only [List.map_cons, compiler.run, h2, Result.bind_ok,
      ih { c with ino := c.ino + 1 } (fun q hq => h q (List.mem_cons_of_mem _ hq)),
      List.filterMap_cons, h1, List.length_cons]
    congr 3
    push_cast
    ring

theorem Compile_variants (emu : Emu) (pairs : List (List Char × List Char)) (hne : pairs ≠ [])
    (h : ∀ p ∈ pairs, p.2 ∈ iset ∧ caseVariant p.1 p.2 = true) :
    Compile emu ([' '].intercalate (pairs.map Prod.fst)) =
      .ok (pairs.filterMap (fun p => opcode emu p.2)) := by
  have hch : ∀ w ∈ pairs.map Prod.fst, ∀ c ∈ w,
      runein c breakpoints = false ∧ c ≠ ReplacementChar := by
    intro w hw
    obtain ⟨p, hp, rfl⟩ := List.mem_map.mp hw
    exact (caseVariant_facts p.1 p.2 (h p hp).2 (iset_chars p.2 (h p hp).1)).2
  rw [Compile_eq, compile_intercalate emu _ (by simpa using hne) hch,
    run_variants_opcode emu pairs _ h]
  simp [Result.map]

/-- C3.  Mnemonic case-insensitivity.  For words `p.1` that differ from
mnemonics `p.2` of the instruction set only in the case of ASCII letters: the
words joined by single spaces compile to the list, in order, of the opcode
constants that carry the names of the mnemonics (none is dropped: every
mnemonic has one); each word alone compiles to the one-element sequence of
the opcode constant of its mnemonic, the same word as the mnemonic itself
compiles to; and `"add In jMp NOP"` gives `[ADD, IN, JMP, NOP]`. -/
theorem C3_mnemonic_case_insensitive (emu : Emu) (pairs : List (List Char × List Char))
    (hne : pairs ≠ []) (h : ∀ p ∈ pairs, p.2 ∈ iset ∧ caseVariant p.1 p.2 = true) :
    Compile emu ([' '].intercalate (pairs.map Prod.fst)) =
        .ok (pairs.filterMap (fun p => opcode emu p.2)) ∧
    (pairs.filterMap (fun p => opcode emu p.2)).length = pairs.length ∧
    (∀ p ∈ pairs, ∃ code, opcode emu p.2 = some code ∧
      Compile emu p.1 = .ok [code] ∧ Compile emu p.2 = .ok [code]) ∧
    Compile emu "add In jMp NOP".toList = .ok [emu.ADD, emu.IN, emu.JMP, emu.NOP] := by
  have hsome : ∀ p ∈ pairs, ∃ code, opcode emu p.2 = some code := by
    intro p hp
    obtain ⟨code, hcode⟩ := lookup_of_mem_keys (strmap emu) p.2
      (by rw [strmap_keys]; exact (h p hp).1)
    exact ⟨code, by rw [← strmap_lookup_eq_opcode emu p.2 (h p hp).1]; exact hcode⟩
  have self : ∀ m ∈ iset, caseVariant m m = true := by decide
  refine ⟨Compile_variants emu pairs hne h, ?_, ?_, by rfl⟩
  · clear hne h
    induction pairs with
    | nil => rfl
    | cons p ps ih =>
      obtain ⟨code, hcode⟩ := hsome p (by simp)
      simp only [List.filterMap_cons, hcode, List.length_cons]
      rw [ih (fun q hq => hsome q (List.mem_cons_of_mem _ hq))]
  · intro p hp
    obtain ⟨code, hcode⟩ := hsome p hp
    have h1 := Compile_variants emu [p] (by simp) (by simpa using h p hp)
    have h2 := Compile_variants emu [(p.2, p.2)] (by simp)
      (by simpa using ⟨(h p hp).1, self p.2 (h p hp).1⟩)
    simp only [List.map_cons, List.map_nil, intercalate_singleton, List.filterMap_cons, hcode,
      List.filterMap_nil] at h1 h2
    exact ⟨code, hcode, h1, h2⟩

/-- C3 at the stream `"add In jMp NOP"`: it compiles to `[ADD, IN, JMP, NOP]`,
and each of its words compiles to the same one word as its mnemonic. -/
theorem C3_witness :
    Compile emu0 ([' '].intercalate
        ([("add".toList, "add".toList), ("In".toList, "in".toList),
          ("jMp".toList, "jmp".toList), ("NOP".toList, "nop".toList)].map Prod.fst))
      = .ok [emu0.ADD, emu0.IN, emu0.JMP, emu0.NOP] ∧
    (∀ p ∈ [("add".toList, "add".toList), ("In".toList, "in".toList),
          ("jMp".toList, "jmp".toList), ("NOP".toList, "nop".toList)],
      ∃ code, opcode emu0 p.2 = some code ∧
        Compile emu0 p.1 = .ok [code] ∧ Compile emu0 p.2 = .ok [code]) :=
  ⟨(C3_mnemonic_case_insensitive emu0
      [("add".toList, "add".toList), ("In".toList, "in".toList),
        ("jMp".toList, "jmp".toList), ("NOP".toList, "nop".toList)]
      (by decide) (by decide)).1,
    (C3_mnemonic_case_insensitive emu0
      [("add".toList, "add".toList), ("In".toList, "in".toList),
        ("jMp".toList, "jmp".toList), ("NOP".toList, "nop".toList)]
      (by decide) (by decide)).2.2.1⟩

/-! ## A run that returns, token by token -/

theorem mem_of_lookup (L : List (List Char × Nat)) (x : List Char) (v : Nat)
    (h : L.lookup x = some v) : (x, v) ∈ L := by
  obtain ⟨l1, l2, rfl, -⟩ := List.lookup_eq_some_iff.mp h
  simp

/-- A `Compile` that returns is the run over the tokens of the input, and the
input has no `U+FFFD`. -/
theorem Compile_ok_run (emu : Emu) (inp : List Char) (out : List Nat)
    (h : Compile emu inp = .ok out) :
    ReplacementChar ∉ inp ∧
      ∃ cf, compiler.compile emu { inp := inp, labels := [], ino := 1 } = .ok (out, cf) ∧
        compiler.run emu { inp := inp, labels := [], ino := 1 } (tokens inp) = .ok (out, cf) := by
  have hrep : ReplacementChar ∉ inp := by
    intro hm
    obtain ⟨e, he⟩ := compile_panic_of_replacement emu { inp := inp, labels := [], ino := 1 } hm
    rw [Compile_eq, he] at h
    simp [Result.map] at h
  refine ⟨hrep, ?_⟩
  rw [Compile_eq] at h
  cases hc : compiler.compile emu { inp := inp, labels := [], ino := 1 } with
  | fuel => rw [hc] at h; simp [Result.map] at h
  | panic e => rw [hc] at h; simp [Result.map] at h
  | ok p =>
    rw [hc] at h
    simp only [Result.map, Result.bind_ok, Result.ok.injEq] at h
    obtain ⟨o, cf⟩ := p
    simp only at h
    subst h
    refine ⟨cf, rfl, ?_⟩
    rw [← hc, compile_eq_run emu _ hrep]

/-- In a run that returns, the word at position `i` is what the turn on the
token at position `i` returns in the state the run over the tokens before it
ends in. -/
theorem run_at (emu : Emu) (c cf : compiler) (ws : List (List Char)) (out : List Nat)
    (h : compiler.run emu c ws = .ok (out, cf)) (i : Nat) (w : List Char)
    (hi : ws[i]? = some w) :
    ∃ ci ci1 a, compiler.run emu c (ws.take i) = .ok (out.take i, ci) ∧
      ci.turn emu w = .ok (a, ci1) ∧ out[i]? = some a ∧
      ci.labels = labeldefs c.ino (ws.take i) ++ c.labels := by
  obtain ⟨hsplit, hlen⟩ := split_at ws i w hi
  rw [hsplit, run_append] at h
  cases h1 : compiler.run emu c (ws.take i) with
  | fuel => simp [h1] at h
  | panic e => simp [h1] at h
  | ok p =>
    obtain ⟨o1, ci⟩ := p
    simp only [h1, Result.bind_ok] at h
    cases h2 : compiler.run emu ci (w :: ws.drop (i + 1)) with
    | fuel => simp [h2] at h
    | panic e => simp [h2] at h
    | ok q =>
      obtain ⟨o2, c2⟩ := q
      simp only [h2, Result.bind_ok, Result.ok.injEq, Prod.mk.injEq] at h
      obtain ⟨rfl, rfl⟩ := h
      obtain ⟨a, ci1, o3, h3, h4, rfl⟩ := run_cons_ok emu ci c2 w _ o2 h2
      obtain ⟨hl1, -, -, hlab⟩ := run_ok_state emu _ _ _ _ h1
      rw [hlen] at hl1
      refine ⟨ci, ci1, a, ?_, h3, ?_, hlab⟩
      · rw [List.take_append_of_le_length (by omega), List.take_of_length_le (by omega)]
      · rw [List.getElem?_append_right (by omega)]
        simp [hl1]

theorem tokens_length (inp : List Char) :
    (tokens inp).length = 1 + inp.countP (fun c => runein c breakpoints) := by
  induction inp with
  | nil => simp [tokens]
  | cons c cs ih =>
    rw [List.countP_cons]
    by_cases h : runein c breakpoints = true
    · simp only [tokens, h, if_true, List.length_cons, ih]
      omega
    · have h1 : runein c breakpoints = false := by simpa using h
      rw [tokens_cons_of_not_bp c cs h1]
      simp only [h1, Bool.false_eq_true, if_false, Nat.add_zero, ← ih]
      have := tokens_ne_nil cs
      cases hs : tokens cs with
      | nil => exact absurd hs this
      | cons w ws => simp

/-- C9.  One word per token.  When `Compile` returns, the returned sequence
has as many words as the input has tokens, that number is one plus the number
of space and newline characters of the input, and the word at position `i` is
the word that the turn of the loop on the token at position `i` returns in the
state reached by the run over the tokens before it (order preserved). -/
theorem C9_one_word_per_token (emu : Emu) (inp : List Char) (out : List Nat)
    (h : Compile emu inp = .ok out) :
    out.length = (tokens inp).length ∧
    (tokens inp).length = 1 + inp.countP (fun c => runein c breakpoints) ∧
    ∀ (i : Nat) (w : List Char), (tokens inp)[i]? = some w →
      ∃ ci ci1 a,
        compiler.run emu { inp := inp, labels := [], ino := 1 } ((tokens inp).take i)
          = .ok (out.take i, ci) ∧
        ci.turn emu w = .ok (a, ci1) ∧ out[i]? = some a := by
  obtain ⟨-, cf, -, hrun⟩ := Compile_ok_run emu inp out h
  refine ⟨(run_ok_state emu _ _ _ _ hrun).1, tokens_length inp, ?_⟩
  intro i w hi
  obtain ⟨ci, ci1, a, h1, h2, h3, -⟩ := run_at emu _ _ _ _ hrun i w hi
  exact ⟨ci, ci1, a, h1, h2, h3⟩

/-- C9 at the input `"add nop a: load &a jmp"`. -/
theorem C9_witness :
    [1, 0, 0, 9, 3, 11].length = (tokens "add nop a: load &a jmp".toList).length ∧
    (tokens "add nop a: load &a jmp".toList).length =
      1 + "add nop a: load &a jmp".toList.countP (fun c => runein c breakpoints) ∧
    ∀ (i : Nat) (w : List Char), (tokens "add nop a: load &a jmp".toList)[i]? = some w →
      ∃ ci ci1 a,
        compiler.run emu0 { inp := "add nop a: load &a jmp".toList, labels := [], ino := 1 }
          ((tokens "add nop a: load &a jmp".toList).take i)
          = .ok ([1, 0, 0, 9, 3, 11].take i, ci) ∧
        ci.turn emu0 w = .ok (a, ci1) ∧ [1, 0, 0, 9, 3, 11][i]? = some a :=
  C9_one_word_per_token emu0 "add nop a: load &a jmp".toList [1, 0, 0, 9, 3, 11] (by decide)

/-! ## Label references -/

theorem tokens_nopsThenLabel (n : Nat) :
    tokens (nopsThenLabel n) = List.replicate n "nop".toList ++ ["a:".toList, "&a".toList] := by
  induction n with
  | zero => decide
  | succ n ih =>
    have e : nopsThenLabel (n + 1) = "nop".toList ++ ' ' :: nopsThenLabel n := by
      simp [nopsThenLabel, List.replicate_succ]
    rw [e, tokens_append_space _ _ (by decide), ih, List.replicate_succ]
    rfl

theorem nopsThenLabel_no_replacement (n : Nat) : ReplacementChar ∉ nopsThenLabel n := by
  induction n with
  | zero => decide
  | succ n ih =>
    have e : nopsThenLabel (n + 1) = "nop".toList ++ ' ' :: nopsThenLabel n := by
      simp [nopsThenLabel, List.replicate_succ]
    rw [e]
    intro hm
    rcases List.mem_append.mp hm with hm | hm
    · exact absurd hm (by decide)
    · rcases List.mem_cons.mp hm with hm | hm
      · exact absurd hm (by decide)
      · exact ih hm

theorem run_nops (emu : Emu) (n : Nat) : ∀ c : compiler,
    compiler.run emu c (List.replicate n "nop".toList) =
      .ok (List.replicate n emu.NOP, { c with ino := c.ino + n }) := by
  induction n with
  | zero => intro c; simp [compiler.run]
  | succ n ih =>
    intro c
    have ht : c.turn emu "nop".toList = .ok (emu.NOP, { c with ino := c.ino + 1 }) := by
      rw [turn_of_instruction emu c _ (by decide)]
      rfl
    simp only [List.replicate_succ, compiler.run, ht, Result.bind_ok, ih]
    congr 3
    push_cast
    ring

/-- The compile of `nopsThenLabel n`: the label gets the address
`uint32(n + 1)` and the reference emits it. -/
theorem compile_nopsThenLabel (emu : Emu) (n : Nat) :
    Compile emu (nopsThenLabel n) =
      .ok (List.replicate n emu.NOP ++
        [emu.NOP, (((n : Int) + 1) % 4294967296).toNat]) := by
  rw [Compile_eq, compile_eq_run emu _ (nopsThenLabel_no_replacement n)]
  simp only
  rw [tokens_nopsThenLabel, run_append, run_nops]
  simp only [Result.bind_ok, compiler.run]
  rw [turn_of_label emu _ _ (by decide)]
  simp only [List.lookup_nil, Result.bind_ok]
  rw [turn_of_labelref emu _ _ (by decide)]
  have e1 : "a:".toList.dropLast = ['a'] := by decide
  have e2 : "&a".toList.tail = ['a'] := by decide
  have e3 : (1 : Int) + n = n + 1 := by ring
  simp [e1, e2, e3, Result.map]

theorem nopsThenLabel_facts (emu : Emu) (n m v : Nat) (hm : m = n + 1)
    (hv : v = (((n : Int) + 1) % 4294967296).toNat) :
    ∃ out, Compile emu (nopsThenLabel n) = .ok out ∧
      (tokens (nopsThenLabel n))[n]? = some "a:".toList ∧
      (tokens (nopsThenLabel n))[m]? = some "&a".toList ∧
      out[m]? = some v := by
  subst hm hv
  refine ⟨_, compile_nopsThenLabel emu n, ?_, ?_, ?_⟩
  · rw [tokens_nopsThenLabel, List.getElem?_append_right (by simp)]
    simp
  · rw [tokens_nopsThenLabel, List.getElem?_append_right (by simp)]
    simp
  · rw [List.getElem?_append_right (by simp)]
    simp

/-- C1 as amended.  Label resolution: when `Compile` returns, the word emitted
for a label-reference token `&x` is the 1-based position, reduced modulo
`2^32`, of the one label-definition token `x:` of the input, which precedes
it; `"add nop a: load &a jmp"` yields `[ADD, NOP, NOP, LOAD, 3, JMP]`. -/
theorem C1_label_reference_resolves (emu : Emu) :
    (∀ (inp : List Char) (out : List Nat), Compile emu inp = .ok out →
      ∀ (i : Nat) (w : List Char), (tokens inp)[i]? = some w → decode w = .ok _LABELREF →
        ∃ (j : Nat) (d : List Char), j < i ∧ (tokens inp)[j]? = some d ∧
          decode d = .ok _LABEL ∧ d.dropLast = w.tail ∧
          out[i]? = some ((j + 1) % 4294967296) ∧
          ∀ (j2 : Nat) (d2 : List Char), (tokens inp)[j2]? = some d2 →
            decode d2 = .ok _LABEL → d2.dropLast = w.tail → j2 = j) ∧
    Compile emu "add nop a: load &a jmp".toList
      = .ok [emu.ADD, emu.NOP, emu.NOP, emu.LOAD, 3, emu.JMP] := by
  refine ⟨?_, by rfl⟩
  intro inp out h i w hi href
  obtain ⟨-, cf, -, hrun⟩ := Compile_ok_run emu inp out h
  obtain ⟨ci, ci1, a, -, h2, h3, hlab⟩ := run_at emu _ _ _ _ hrun i w hi
  simp only [List.append_nil] at hlab
  rw [turn_of_labelref emu ci w href] at h2
  cases hl : ci.labels.lookup w.tail with
  | none => simp [hl] at h2
  | some v =>
    simp only [hl, Result.ok.injEq, Prod.mk.injEq] at h2
    obtain ⟨rfl, -⟩ := h2
    have hmem := mem_of_lookup _ _ _ hl
    rw [hlab, mem_labeldefs] at hmem
    obtain ⟨j, d, h4, h5, h6, h7⟩ := hmem
    have hj : j < i := by
      have := (List.getElem?_eq_some_iff.mp h4).1
      rw [List.length_take] at this
      omega
    rw [List.getElem?_take_of_lt hj] at h4
    refine ⟨j, d, hj, h4, h5, h6, ?_, ?_⟩
    · rw [h3, h7]
      congr 1
      omega
    · intro j2 d2 g1 g2 g3
      by_contra hne
      rcases Nat.lt_or_gt_of_ne hne with hlt | hgt
      · obtain ⟨e, he⟩ := duplicate_label_panics emu inp j2 j d2 d hlt g1 h4 g2 h5 (by rw [g3, h6])
        rw [he] at h
        simp at h
      · obtain ⟨e, he⟩ := duplicate_label_panics emu inp j j2 d d2 hgt h4 g1 h5 g2 (by rw [g3, h6])
        rw [he] at h
        simp at h

/-- C1 as amended, at the input `"add nop a: load &a jmp"` and its reference
token at position 4. -/
theorem C1_witness :
    ∃ (j : Nat) (d : List Char), j < 4 ∧
      (tokens "add nop a: load &a jmp".toList)[j]? = some d ∧
      decode d = .ok _LABEL ∧ d.dropLast = "&a".toList.tail ∧
      [1, 0, 0, 9, 3, 11][4]? = some ((j + 1) % 4294967296) ∧
      ∀ (j2 : Nat) (d2 : List Char), (tokens "add nop a: load &a jmp".toList)[j2]? = some d2 →
        decode d2 = .ok _LABEL → d2.dropLast = "&a".toList.tail → j2 = j :=
  (C1_label_reference_resolves emu0).1 "add nop a: load &a jmp".toList [1, 0, 0, 9, 3, 11]
    (by decide) 4 "&a".toList (by decide) (by decide)

/-- C1 as stated fails.  In the program of 4294967295 instructions `nop`
followed by `a: &a`, the definition `a:` is the token at the 1-based position
4294967296 (index 4294967295), the reference `&a` is the token at index
4294967296, `Compile` returns, and the word emitted for the reference is 0,
not 4294967296. -/
theorem C1_counterexample :
    ∃ out, Compile emu0 (nopsThenLabel 4294967295) = .ok out ∧
      (tokens (nopsThenLabel 4294967295))[4294967295]? = some "a:".toList ∧
      (tokens (nopsThenLabel 4294967295))[4294967296]? = some "&a".toList ∧
      out[4294967296]? = some 0 :=
  nopsThenLabel_facts emu0 4294967295 4294967296 0 (by norm_num) (by norm_num)

/-! ## Streams of label definitions -/

theorem golen_ge_length (w : List Char) : w.length ≤ golen w := by
  induction w with
  | nil => simp [golen]
  | cons c cs ih =>
    have h : 1 ≤ c.utf8Size := c.utf8Size_pos
    simp only [golen, List.map_cons, List.sum_cons, List.length_cons] at ih ⊢
    omega

/-- What `decode` has checked of a word it calls a label definition. -/
theorem decode_label_facts (t : List Char) (h : decode t = .ok _LABEL) :
    islabel.loop t = true ∧ t.getLast? = some ':' := by
  unfold decode at h
  split at h
  · exact absurd h (by decide)
  · split at h
    · exact absurd h (by decide)
    · cases h1 : islabel t with
      | fuel => simp [h1] at h
      | panic e => simp [h1] at h
      | ok isl =>
        cases isl with
        | false =>
          simp only [h1, Result.bind_ok, Bool.false_eq_true, if_false] at h
          cases h2 : islabelref t with
          | fuel => simp [h2] at h
          | panic e => simp [h2] at h
          | ok isr =>
            cases isr with
            | true => simp [h2] at h; exact absurd h (by decide)
            | false => simp [h2] at h
        | true =>
          unfold islabel at h1
          split at h1
          · simp at h1
          · rename_i hloop
            cases hg : t.getLast? with
            | none => simp [hg] at h1
            | some r =>
              simp only [hg, Result.ok.injEq, Bool.and_eq_true, beq_iff_eq] at h1
              exact ⟨by simpa using hloop, by rw [h1.2]⟩

theorem label_chars (t : List Char) (h : decode t = .ok _LABEL) :
    ∀ c ∈ t, runein c breakpoints = false ∧ c ≠ ReplacementChar := by
  intro c hc
  have h1 := (islabel_loop_iff t).mp (decode_label_facts t h).1 c hc
  have e1 : '_'.toNat = 95 := by decide
  have e2 : ':'.toNat = 58 := by decide
  have e3 : 'a'.toNat = 97 := by decide
  have e4 : 'z'.toNat = 122 := by decide
  have e5 : '\n'.toNat = 10 := by decide
  have e6 : ' '.toNat = 32 := by decide
  have e7 : ReplacementChar.toNat = 65533 := by decide
  simp only [char_le_iff, char_eq_iff] at h1
  constructor
  · rw [Bool.eq_false_iff, Ne, runein_breakpoints, char_eq_iff, char_eq_iff]
    omega
  · rw [Ne, char_eq_iff]
    omega

theorem label_name_inj (s t : List Char) (hs : decode s = .ok _LABEL)
    (ht : decode t = .ok _LABEL) (h : s.dropLast = t.dropLast) : s = t := by
  have h1 := List.dropLast_append_getLast? ':' (by rw [(decode_label_facts s hs).2]; rfl)
  have h2 := List.dropLast_append_getLast? ':' (by rw [(decode_label_facts t ht).2]; rfl)
  rw [← h1, ← h2, h]

/-- The run over pairwise distinct label definitions whose names the table
does not have returns one `NOP` per definition. -/
theorem run_labels (emu : Emu) (toks : List (List Char)) : ∀ c : compiler,
    (∀ t ∈ toks, decode t = .ok _LABEL) → toks.Nodup →
    (∀ t ∈ toks, c.labels.lookup t.dropLast = none) →
    ∃ cf, compiler.run emu c toks = .ok (List.replicate toks.length emu.NOP, cf) := by
  induction toks with
  | nil => intro c _ _ _; exact ⟨c, by simp [compiler.run]⟩
  | cons t ts ih =>
    intro c hdec hnd hfree
    have ht := hdec t (by simp)
    have hturn := turn_of_label emu c t ht
    rw [hfree t (by simp)] at hturn
    simp only at hturn
    obtain ⟨hnot, hnd1⟩ := List.nodup_cons.mp hnd
    obtain ⟨cf, hcf⟩ := ih
      { c with labels := (t.dropLast, (c.ino % 4294967296).toNat) :: c.labels, ino := c.ino + 1 }
      (fun s hs => hdec s (List.mem_cons_of_mem _ hs)) hnd1 (by
      intro s hs
      have hne : s.dropLast ≠ t.dropLast := by
        intro he
        have := label_name_inj s t (hdec s (List.mem_cons_of_mem _ hs)) ht he
        rw [this] at hs
        exact hnot hs
      simp only [List.lookup_cons]
      have hb : (s.dropLast == t.dropLast) = false := by simpa using hne
      rw [hb]
      exact hfree s (List.mem_cons_of_mem _ hs))
    exact ⟨cf, by simp [compiler.run, hturn, hcf, List.replicate_succ]⟩

/-- Pairwise distinct label definitions joined by single spaces, compiled from
the fresh state: one `NOP` each, and a table that maps the name of the token
at index `k` to `uint32(k + 1)` and has no other name. -/
theorem label_stream (emu : Emu) (toks : List (List Char)) (hne : toks ≠ [])
    (hdec : ∀ t ∈ toks, decode t = .ok _LABEL) (hnd : toks.Nodup) :
    ∃ cf, compiler.compile emu { inp := [' '].intercalate toks, labels := [], ino := 1 }
        = .ok (List.replicate toks.length emu.NOP, cf) ∧
      (∀ (k : Nat) (t : List Char), toks[k]? = some t →
        cf.labels.lookup t.dropLast = some ((k + 1) % 4294967296)) ∧
      (∀ name : List Char, (∀ t ∈ toks, t.dropLast ≠ name) → cf.labels.lookup name = none) := by
  obtain ⟨cf, hcf⟩ := run_labels emu toks
    { inp := [' '].intercalate toks, labels := [], ino := 1 } hdec hnd (by simp)
  obtain ⟨-, -, -, hlab⟩ := run_ok_state emu _ _ _ _ hcf
  simp only [List.append_nil] at hlab
  refine ⟨cf, ?_, ?_, ?_⟩
  · rw [compile_intercalate emu toks hne (fun t ht => label_chars t (hdec t ht)), hcf]
  · intro k t hk
    have hmem : (t.dropLast, (((1 : Int) + k) % 4294967296).toNat) ∈ cf.labels := by
      rw [hlab, mem_labeldefs]
      exact ⟨k, t, hk, hdec t (List.getElem?_mem hk), rfl, rfl⟩
    cases hl : cf.labels.lookup t.dropLast with
    | none => exact absurd hl (lookup_ne_none_of_mem _ _ _ hmem)
    | some v =>
      have hm2 := mem_of_lookup _ _ _ hl
      rw [hlab, mem_labeldefs] at hm2
      obtain ⟨j, s, g1, g2, g3, g4⟩ := hm2
      have hst : s = t := label_name_inj s t g2 (hdec t (List.getElem?_mem hk)) g3
      subst hst
      have hjk : j = k :=
        List.getElem?_inj (List.getElem?_eq_some_iff.mp g1).1 hnd (by rw [g1, hk])
      subst hjk
      rw [g4]
      congr 1
      omega
  · intro name hname
    apply lookup_eq_none_of_not_mem
    intro v hv
    rw [hlab, mem_labeldefs] at hv
    obtain ⟨j, s, g1, -, g3, -⟩ := hv
    exact hname s (List.getElem?_mem g1) g3

/-- C2 as amended.  For every `n >= 1` and every list of `n` pairwise distinct
label-definition tokens joined by single spaces, `compile` from the fresh
state (empty table, index 1) returns exactly `n` words `NOP` and leaves a
label table that maps the name of the `k`-th token to `k` reduced modulo
`2^32`, for `k = 1..n`, and has no other name. -/
theorem C2_label_definitions_stream (emu : Emu) (n : Nat) (toks : List (List Char))
    (hn : 1 ≤ n) (hlen : toks.length = n) (hdec : ∀ t ∈ toks, decode t = .ok _LABEL)
    (hnd : toks.Nodup) :
    ∃ cf, compiler.compile emu { inp := [' '].intercalate toks, labels := [], ino := 1 }
        = .ok (List.replicate n emu.NOP, cf) ∧
      (∀ (k : Nat) (t : List Char), toks[k]? = some t →
        cf.labels.lookup t.dropLast = some ((k + 1) % 4294967296)) ∧
      (∀ name : List Char, (∀ t ∈ toks, t.dropLast ≠ name) → cf.labels.lookup name = none) := by
  have hne : toks ≠ [] := by
    intro h
    rw [h] at hlen
    simp at hlen
    omega
  subst hlen
  exact label_stream emu toks hne hdec hnd

/-- C2 as amended, at the input `"a: b: c: d:"`. -/
theorem C2_witness :
    ∃ cf, compiler.compile emu0
        { inp := [' '].intercalate ["a:".toList, "b:".toList, "c:".toList, "d:".toList],
          labels := [], ino := 1 }
        = .ok (List.replicate 4 emu0.NOP, cf) ∧
      (∀ (k : Nat) (t : List Char),
        ["a:".toList, "b:".toList, "c:".toList, "d:".toList][k]? = some t →
        cf.labels.lookup t.dropLast = some ((k + 1) % 4294967296)) ∧
      (∀ name : List Char,
        (∀ t ∈ ["a:".toList, "b:".toList, "c:".toList, "d:".toList], t.dropLast ≠ name) →
        cf.labels.lookup name = none) :=
  C2_label_definitions_stream emu0 4 ["a:".toList, "b:".toList, "c:".toList, "d:".toList]
    (by decide) (by decide) (by decide) (by decide)
theorem decode_label_of_shape (body : List Char) (hne : body ≠ [])
    (hch : ∀ c ∈ body, 'a' ≤ c ∧ c ≤ 'z') : decode (body ++ [':']) = .ok _LABEL := by
  have hint : isinteger (body ++ [':']) = false := by
    rw [Bool.eq_false_iff]
    intro h
    exact absurd ((isinteger_iff _).mp h ':' (by simp)) (by decide)
  have hinstr : isinstruction (body ++ [':']) = false :=
    not_mem_iset_of_mem _ ':' (by simp) (by decide) (by decide) (by decide) (by decide)
      (by decide)
  have hloop : islabel.loop (body ++ [':']) = true := by
    rw [islabel_loop_iff]
    intro c hc
    rcases List.mem_append.mp hc with hc | hc
    · exact Or.inr (Or.inr (hch c hc))
    · exact Or.inr (Or.inl (by simpa using hc))
  have hlen : 2 ≤ golen (body ++ [':']) := by
    have h1 := golen_ge_length (body ++ [':'])
    have h2 : 0 < body.length := List.length_pos.mpr hne
    simp only [List.length_append, List.length_singleton] at h1
    omega
  simp [decode, hint, hinstr, islabel, hloop, hlen, List.getLast?_concat]

theorem decode_labelName (k : Nat) : decode (labelName k) = .ok _LABEL := by
  apply decode_label_of_shape
  · intro h
    have := congrArg List.length h
    simp at this
  · intro c hc
    obtain ⟨i, -, rfl⟩ := List.mem_map.mp hc
    split <;> decide

theorem labelName_inj (j k : Nat) (hj : j < 4294967296) (hk : k < 4294967296)
    (h : labelName j = labelName k) : j = k := by
  have h1 := List.append_cancel_right h
  rw [List.map_inj_left] at h1
  apply Nat.eq_of_testBit_eq
  intro i
  by_cases hi : i < 32
  · have h2 := h1 i (List.mem_range.mpr hi)
    cases hb1 : j.testBit i <;> cases hb2 : k.testBit i <;> simp [hb1, hb2] at h2 ⊢
  · have hp : (4294967296 : Nat) ≤ 2 ^ i := by
      have : (2 : Nat) ^ 32 ≤ 2 ^ i := Nat.pow_le_pow_right (by norm_num) (by omega)
      calc (4294967296 : Nat) = 2 ^ 32 := by norm_num
        _ ≤ 2 ^ i := this
    rw [Nat.testBit_lt_two_pow (lt_of_lt_of_le hj hp),
      Nat.testBit_lt_two_pow (lt_of_lt_of_le hk hp)]

theorem manyLabels_nodup (n : Nat) (hn : n ≤ 4294967296) : (manyLabels n).Nodup := by
  apply List.Nodup.map_on _ (List.nodup_range n)
  intro j hj k hk h
  exact labelName_inj j k (lt_of_lt_of_le (List.mem_range.mp hj) hn)
    (lt_of_lt_of_le (List.mem_range.mp hk) hn) h

/-- The first `n` tokens of the family `labelName` joined by single spaces,
for `n` up to `2^32`: they are pairwise distinct label definitions, `compile`
returns, and the last name is mapped to `uint32(n)`. -/
theorem manyLabels_facts (emu : Emu) (n k v : Nat) (hn : n ≤ 4294967296) (hk : k + 1 = n)
    (hv : v = (k + 1) % 4294967296) :
    (manyLabels n).length = n ∧ (∀ t ∈ manyLabels n, decode t = .ok _LABEL) ∧
      (manyLabels n).Nodup ∧
      ∃ cf, compiler.compile emu
          { inp := [' '].intercalate (manyLabels n), labels := [], ino := 1 }
          = .ok (List.replicate n emu.NOP, cf) ∧
        (manyLabels n)[k]? = some (labelName k) ∧
        cf.labels.lookup (labelName k).dropLast = some v := by
  have hlen : (manyLabels n).length = n := by simp [manyLabels]
  have hdec : ∀ t ∈ manyLabels n, decode t = .ok _LABEL := by
    intro t ht
    obtain ⟨i, -, rfl⟩ := List.mem_map.mp ht
    exact decode_labelName i
  have hne : manyLabels n ≠ [] := by
    intro h
    rw [h] at hlen
    simp at hlen
    omega
  have hget : (manyLabels n)[k]? = some (labelName k) := by
    simp only [manyLabels, List.getElem?_map]
    rw [List.getElem?_range (by omega)]
    rfl
  obtain ⟨cf, h1, h2, -⟩ := label_stream emu (manyLabels n) hne hdec (manyLabels_nodup n hn)
  rw [hlen] at h1
  exact ⟨hlen, hdec, manyLabels_nodup n hn, cf, h1, hget, by rw [hv]; exact h2 k _ hget⟩

/-- C2 as stated fails.  The 4294967296 tokens of `manyLabels 4294967296` are
pairwise distinct label definitions; `compile` from the fresh state returns on
them joined by single spaces, and the table maps the name of the last token,
the 4294967296-th, to 0, not to 4294967296. -/
theorem C2_counterexample :
    (manyLabels 4294967296).length = 4294967296 ∧
      (∀ t ∈ manyLabels 4294967296, decode t = .ok _LABEL) ∧
      (manyLabels 4294967296).Nodup ∧
      ∃ cf, compiler.compile emu0
          { inp := [' '].intercalate (manyLabels 4294967296), labels := [], ino := 1 }
          = .ok (List.replicate 4294967296 emu0.NOP, cf) ∧
        (manyLabels 4294967296)[4294967295]? = some (labelName 4294967295) ∧
        cf.labels.lookup (labelName 4294967295).dropLast = some 0 :=
  manyLabels_facts emu0 4294967296 4294967295 0 (le_refl _) (by norm_num) (by norm_num)

/-! ## The loop bounds are never reached -/

/-- The fuel that `compile` passes to its loops always suffices: `compile`
returns or panics. -/
theorem compile_ne_fuel (emu : Emu) (c : compiler) : c.compile emu ≠ .fuel := by
  by_cases h : ReplacementChar ∈ c.inp
  · obtain ⟨e, he⟩ := compile_panic_of_replacement emu c h
    rw [he]
    simp
  · rw [compile_eq_run emu c h]
    exact run_ne_fuel emu _ c

theorem Compile_ne_fuel (emu : Emu) (inp : List Char) : Compile emu inp ≠ .fuel := by
  rw [Compile_eq]
  cases h : compiler.compile emu { inp := inp, labels := [], ino := 1 } with
  | fuel => exact absurd h (compile_ne_fuel emu _)
  | panic e => simp [Result.map]
  | ok p => simp [Result.map]

/-! ## The classification rules -/

theorem utf8Size_ascii (c : Char) (h : c.toNat ≤ 127) : c.utf8Size = 1 := by
  have h1 : c.val ≤ UInt32.ofNatCore 127 (by decide) := h
  unfold Char.utf8Size
  exact if_pos h1

theorem golen_eq_length (w : List Char) (h : ∀ c ∈ w, c.toNat ≤ 127) : golen w = w.length := by
  induction w with
  | nil => simp [golen]
  | cons c cs ih =>
    have h1 := utf8Size_ascii c (h c (by simp))
    have h2 := ih (fun d hd => h d (by simp [hd]))
    simp only [golen, List.map_cons, List.sum_cons, List.length_cons] at h2 ⊢
    omega

theorem golen_of_label_loop (w : List Char) (h : islabel.loop w = true) :
    golen w = w.length := by
  apply golen_eq_length
  intro c hc
  have h1 := (islabel_loop_iff w).mp h c hc
  have e1 : '_'.toNat = 95 := by decide
  have e2 : ':'.toNat = 58 := by decide
  have e4 : 'z'.toNat = 122 := by decide
  simp only [char_le_iff, char_eq_iff] at h1
  omega

theorem golen_of_labelref_loop (w : List Char) (h : islabelref.loop w = true) :
    golen w = w.length := by
  apply golen_eq_length
  intro c hc
  have h1 := (islabelref_loop_iff w).mp h c hc
  have e1 : '_'.toNat = 95 := by decide
  have e2 : '&'.toNat = 38 := by decide
  have e4 : 'z'.toNat = 122 := by decide
  simp only [char_le_iff, char_eq_iff] at h1
  omega

theorem islabel_eq_true_iff (w : List Char) :
    islabel w = .ok true ↔
      (islabel.loop w = true ∧ 2 ≤ w.length ∧ w.getLast? = some ':') := by
  unfold islabel
  by_cases hloop : islabel.loop w = true
  · have hlen := golen_of_label_loop w hloop
    simp only [hloop, Bool.not_true, Bool.false_eq_true, if_false, true_and, hlen]
    cases hg : w.getLast? with
    | none => simp
    | some r => simp
  · have hloop1 : islabel.loop w = false := by simpa using hloop
    simp [hloop1]

theorem islabelref_eq_true_iff (w : List Char) :
    islabelref w = .ok true ↔
      (islabelref.loop w = true ∧ 2 ≤ w.length ∧ w.head? = some '&') := by
  unfold islabelref
  by_cases hloop : islabelref.loop w = true
  · have hlen := golen_of_labelref_loop w hloop
    simp only [hloop, Bool.not_true, Bool.false_eq_true, if_false, true_and, hlen]
    cases hg : w.head? with
    | none => simp
    | some r => simp
  · have hloop1 : islabelref.loop w = false := by simpa using hloop
    simp [hloop1]

/-- On a non-empty word `islabel` and `islabelref` return. -/
theorem islabel_ok_of_ne_nil (w : List Char) (h : w ≠ []) :
    (∃ a, islabel w = .ok a) ∧ ∃ b, islabelref w = .ok b := by
  cases w with
  | nil => exact absurd rfl h
  | cons x xs =>
    constructor
    · unfold islabel
      split
      · exact ⟨_, rfl⟩
      · cases hg : (x :: xs).getLast? with
        | none => simp at hg
        | some r => exact ⟨_, rfl⟩
    · unfold islabelref
      split
      · exact ⟨_, rfl⟩
      · exact ⟨_, rfl⟩

theorem ne_nil_of_not_isinteger (w : List Char) (h : isinteger w = false) : w ≠ [] := by
  intro hw
  rw [hw] at h
  exact absurd h (by decide)

/-- Past the first two rules `decode` answers `_LABEL` exactly when `islabel`
returns true. -/
theorem decode_label_iff (w : List Char) (h1 : isinteger w = false)
    (h2 : isinstruction w = false) : decode w = .ok _LABEL ↔ islabel w = .ok true := by
  obtain ⟨⟨a, ha⟩, ⟨b, hb⟩⟩ := islabel_ok_of_ne_nil w (ne_nil_of_not_isinteger w h1)
  simp only [decode, h1, h2, Bool.false_eq_true, if_false, ha, hb, Result.bind_ok]
  cases a with
  | true => simp
  | false =>
    cases b with
    | true => simp; decide
    | false => simp

/-- Past the first three rules `decode` answers `_LABELREF` exactly when
`islabelref` returns true. -/
theorem decode_labelref_iff (w : List Char) (h1 : isinteger w = false)
    (h2 : isinstruction w = false) (h3 : decode w ≠ .ok _LABEL) :
    decode w = .ok _LABELREF ↔ islabelref w = .ok true := by
  obtain ⟨⟨a, ha⟩, ⟨b, hb⟩⟩ := islabel_ok_of_ne_nil w (ne_nil_of_not_isinteger w h1)
  have hfalse : a = false := by
    cases a with
    | false => rfl
    | true => exact absurd ((decode_label_iff w h1 h2).mpr ha) h3
  subst hfalse
  simp only [decode, h1, h2, Bool.false_eq_true, if_false, ha, hb, Result.bind_ok]
  cases b with
  | true => simp
  | false => simp

/-- C11 as amended.  LabelDef classification rule: for every word that is
neither an Integer nor an Instruction, `decode` answers LabelDef if and only
if the word has length at least 2, its final character is `:` and every
character other than the final one is a lowercase ASCII letter, an underscore
or a colon. -/
theorem C11_labeldef_rule (w : List Char) (h1 : isinteger w = false)
    (h2 : isinstruction w = false) :
    decode w = .ok _LABEL ↔
      (2 ≤ w.length ∧ w.getLast? = some ':' ∧
        ∀ c ∈ w.dropLast, c = '_' ∨ c = ':' ∨ ('a' ≤ c ∧ c ≤ 'z')) := by
  rw [decode_label_iff w h1 h2, islabel_eq_true_iff, islabel_loop_iff]
  constructor
  · rintro ⟨h3, h4, h5⟩
    exact ⟨h4, h5, fun c hc => h3 c (List.mem_of_mem_dropLast hc)⟩
  · rintro ⟨h4, h5, h3⟩
    refine ⟨?_, h4, h5⟩
    intro c hc
    have hw : w.dropLast ++ [':'] = w :=
      List.dropLast_append_getLast? ':' (by rw [h5]; rfl)
    rw [← hw] at hc
    rcases List.mem_append.mp hc with hc | hc
    · exact h3 c hc
    · exact Or.inr (Or.inl (by simpa using hc))

/-- C11 as amended, at the word `"a:b:"`. -/
theorem C11_witness :
    decode "a:b:".toList = .ok _LABEL ↔
      (2 ≤ "a:b:".toList.length ∧ "a:b:".toList.getLast? = some ':' ∧
        ∀ c ∈ "a:b:".toList.dropLast, c = '_' ∨ c = ':' ∨ ('a' ≤ c ∧ c ≤ 'z')) :=
  C11_labeldef_rule "a:b:".toList (by decide) (by decide)

/-- C11 as stated fails.  The word `"a:b:"` is neither an Integer nor an
Instruction and `decode` answers LabelDef on it, although a character other
than the final one, the first colon, is neither a lowercase ASCII letter nor
an underscore. -/
theorem C11_counterexample :
    isinteger "a:b:".toList = false ∧ isinstruction "a:b:".toList = false ∧
      decode "a:b:".toList = .ok _LABEL ∧
      ¬ (∀ c ∈ "a:b:".toList.dropLast, c = '_' ∨ ('a' ≤ c ∧ c ≤ 'z')) := by
  decide

/-- C12 as amended.  LabelRef classification rule: for every word that is not
an Integer, an Instruction or a LabelDef, `decode` answers LabelRef if and
only if the word has length at least 2, its first character is `&` and every
character other than the first one is a lowercase ASCII letter, an underscore
or an ampersand. -/
theorem C12_labelref_rule (w : List Char) (h1 : isinteger w = false)
    (h2 : isinstruction w = false) (h3 : decode w ≠ .ok _LABEL) :
    decode w = .ok _LABELREF ↔
      (2 ≤ w.length ∧ w.head? = some '&' ∧
        ∀ c ∈ w.tail, c = '_' ∨ c = '&' ∨ ('a' ≤ c ∧ c ≤ 'z')) := by
  rw [decode_labelref_iff w h1 h2 h3, islabelref_eq_true_iff, islabelref_loop_iff]
  cases w with
  | nil => simp
  | cons x xs =>
    simp only [List.head?_cons, Option.some.injEq, List.tail_cons, List.mem_cons,
      forall_eq_or_imp]
    constructor
    · rintro ⟨⟨-, h4⟩, h5, h6⟩
      exact ⟨h5, h6, h4⟩
    · rintro ⟨h5, h6, h4⟩
      exact ⟨⟨Or.inr (Or.inl h6), h4⟩, h5, h6⟩

/-- C12 as amended, at the word `"&a&b"`. -/
theorem C12_witness :
    decode "&a&b".toList = .ok _LABELREF ↔
      (2 ≤ "&a&b".toList.length ∧ "&a&b".toList.head? = some '&' ∧
        ∀ c ∈ "&a&b".toList.tail, c = '_' ∨ c = '&' ∨ ('a' ≤ c ∧ c ≤ 'z')) :=
  C12_labelref_rule "&a&b".toList (by decide) (by decide) (by decide)

/-- C12 as stated fails.  The word `"&a&b"` is not an Integer, an Instruction
or a LabelDef and `decode` answers LabelRef on it, although a character other
than the first one, the second ampersand, is neither a lowercase ASCII letter
nor an underscore. -/
theorem C12_counterexample :
    isinteger "&a&b".toList = false ∧ isinstruction "&a&b".toList = false ∧
      decode "&a&b".toList ≠ .ok _LABEL ∧ decode "&a&b".toList = .ok _LABELREF ∧
      ¬ (∀ c ∈ "&a&b".toList.tail, c = '_' ∨ ('a' ≤ c ∧ c ≤ 'z')) := by
  decide

/-- C13.  Rule disjointness: on every non-empty word `islabel` and
`islabelref` both return, and never both return true. -/
theorem C13_rules_disjoint (w : List Char) (h : w ≠ []) :
    ∃ a b, islabel w = .ok a ∧ islabelref w = .ok b ∧ ¬ (a = true ∧ b = true) := by
  obtain ⟨⟨a, ha⟩, ⟨b, hb⟩⟩ := islabel_ok_of_ne_nil w h
  refine ⟨a, b, ha, hb, ?_⟩
  rintro ⟨rfl, rfl⟩
  obtain ⟨h1, -, -⟩ := (islabel_eq_true_iff w).mp ha
  obtain ⟨-, -, h2⟩ := (islabelref_eq_true_iff w).mp hb
  cases w with
  | nil => exact absurd rfl h
  | cons x xs =>
    simp only [List.head?_cons, Option.some.injEq] at h2
    subst h2
    simp [islabel.loop] at h1

/-- C13 at the word `"a:"`. -/
theorem C13_witness :
    ∃ a b, islabel "a:".toList = .ok a ∧ islabelref "a:".toList = .ok b ∧
      ¬ (a = true ∧ b = true) :=
  C13_rules_disjoint "a:".toList (by decide)

theorem isinstruction_of_decode (w : List Char) (h : decode w = .ok _INSTRUCTION) :
    isinstruction w = true := by
  by_cases h1 : isinteger w = true
  · simp [decode, h1] at h
    exact absurd h (by decide)
  · by_cases h2 : isinstruction w = true
    · exact h2
    · have h1f : isinteger w = false := by simpa using h1
      have h2f : isinstruction w = false := by simpa using h2
      obtain ⟨⟨a, ha⟩, ⟨b, hb⟩⟩ := islabel_ok_of_ne_nil w (ne_nil_of_not_isinteger w h1f)
      simp only [decode, h1f, h2f, Bool.false_eq_true, if_false, ha, hb, Result.bind_ok] at h
      cases a <;> cases b <;> simp at h <;> exact absurd h (by decide)

/-- C14.  The unknown-mnemonic failure is unreachable: on every word that
`decode` calls an Instruction, `compileinstr` returns, and what it returns is
the opcode constant that `strmap` has for the lowered word; the keys of
`strmap` are the members of the set of `isinstruction`. -/
theorem C14_unknown_mnemonic_unreachable (emu : Emu) :
    (∀ (c : compiler) (w : List Char), decode w = .ok _INSTRUCTION →
      ∃ code, c.compileinstr emu w = .ok code ∧ (ToLower w, code) ∈ strmap emu) ∧
    (strmap emu).map Prod.fst = iset := by
  refine ⟨?_, rfl⟩
  intro c w h
  have hi := (isinstruction_iff w).mp (isinstruction_of_decode w h)
  obtain ⟨code, hcode⟩ := lookup_of_mem_keys (strmap emu) (ToLower w)
    (by rw [strmap_keys]; exact hi)
  exact ⟨code, by simp [compiler.compileinstr, hcode], mem_of_lookup _ _ _ hcode⟩

/-- C14 at the word `"jMp"`. -/
theorem C14_witness :
    ∃ code, compiler.compileinstr emu0 { inp := [], labels := [], ino := 1 } "jMp".toList
        = .ok code ∧ (ToLower "jMp".toList, code) ∈ strmap emu0 :=
  (C14_unknown_mnemonic_unreachable emu0).1 _ "jMp".toList (by decide)

/-- C18 as amended.  Table size: the set of mnemonics accepted by the
classifier has exactly 21 members, and the opcode table of the compiler has
exactly 21 entries, with pairwise distinct keys. -/
theorem C18_table_size (emu : Emu) :
    iset.length = 21 ∧ iset.Nodup ∧ (strmap emu).length = 21 ∧
      ((strmap emu).map Prod.fst).Nodup := by
  refine ⟨rfl, by decide, rfl, ?_⟩
  rw [strmap_keys]
  decide

/-- C18 as stated fails.  The mnemonics of the classifier are 21 pairwise
distinct words and the opcode table has 21 entries, not 20. -/
theorem C18_counterexample :
    iset.Nodup ∧ iset.length = 21 ∧ (strmap emu0).length = 21 ∧
      ¬ (iset.length = 20) ∧ ¬ ((strmap emu0).length = 20) := by
  decide

/-! ## Which panics can happen -/

theorem decode_ok_or_unknownFormat (w : List Char) :
    (∃ t, decode w = .ok t) ∨ decode w = .panic .unknownFormat := by
  by_cases h1 : isinteger w = true
  · exact Or.inl ⟨_INTEGER, by simp [decode, h1]⟩
  · by_cases h2 : isinstruction w = true
    · exact Or.inl ⟨_INSTRUCTION, by simp [decode, h1, h2]⟩
    · have h1f : isinteger w = false := by simpa using h1
      have h2f : isinstruction w = false := by simpa using h2
      obtain ⟨⟨a, ha⟩, ⟨b, hb⟩⟩ := islabel_ok_of_ne_nil w (ne_nil_of_not_isinteger w h1f)
      cases a with
      | true => exact Or.inl ⟨_LABEL, by simp [decode, h1f, h2f, ha]⟩
      | false =>
        cases b with
        | true => exact Or.inl ⟨_LABELREF, by simp [decode, h1f, h2f, ha, hb]⟩
        | false => exact Or.inr (by simp [decode, h1f, h2f, ha, hb])

theorem decode_panic (w : List Char) (e : Err) (h : decode w = .panic e) :
    e = .unknownFormat := by
  rcases decode_ok_or_unknownFormat w with ⟨t, ht⟩ | h1
  · rw [ht] at h; simp at h
  · rw [h1] at h
    simp only [Result.panic.injEq] at h
    exact h.symm

theorem length_of_decode_label (w : List Char) (h : decode w = .ok _LABEL) : 2 ≤ w.length := by
  by_cases h1 : isinteger w = true
  · simp [decode, h1] at h
    exact absurd h (by decide)
  · by_cases h2 : isinstruction w = true
    · simp [decode, h1, h2] at h
      exact absurd h (by decide)
    · have h1f : isinteger w = false := by simpa using h1
      have h2f : isinstruction w = false := by simpa using h2
      exact ((islabel_eq_true_iff w).mp ((decode_label_iff w h1f h2f).mp h)).2.1

theorem length_of_decode_labelref (w : List Char) (h : decode w = .ok _LABELREF) :
    2 ≤ w.length := by
  by_cases h1 : isinteger w = true
  · simp [decode, h1] at h
    exact absurd h (by decide)
  · by_cases h2 : isinstruction w = true
    · simp [decode, h1, h2] at h
      exact absurd h (by decide)
    · have h1f : isinteger w = false := by simpa using h1
      have h2f : isinstruction w = false := by simpa using h2
      have h3 : decode w ≠ .ok _LABEL := by
        rw [h]
        simp only [ne_eq, Result.ok.injEq]
        decide
      exact ((islabelref_eq_true_iff w).mp ((decode_labelref_iff w h1f h2f h3).mp h)).2.1

theorem runeiter_walk_panic (ri : runeiter) (e : Err) (h : ri.walk = .panic e) :
    e = .invalidCode := by
  unfold runeiter.walk at h
  split at h
  · simp at h
  · split at h
    · simp at h
    · split at h
      · simp only [Result.panic.injEq] at h
        exact h.symm
      · simp at h

theorem walkloop_panic : ∀ (k : Nat) (li : lexemiter) (e : Err),
    lexemiter.walkloop k li = .panic e → e = .invalidCode := by
  intro k
  induction k with
  | zero => intro li e h; simp [lexemiter.walkloop] at h
  | succ k ih =>
    intro li e h
    simp only [lexemiter.walkloop] at h
    split at h
    · cases hn : li.runeiter.next with
      | fuel => simp [hn] at h
      | panic e1 =>
        simp only [hn, Result.panic.injEq] at h
        subst h
        simp only [runeiter.next] at hn
        cases hw : li.runeiter.walk with
        | fuel => simp [hw] at hn
        | ok r => simp [hw] at hn
        | panic e2 =>
          simp only [hw, Result.bind_panic, Result.panic.injEq] at hn
          subst hn
          exact runeiter_walk_panic _ _ hw
      | ok p =>
        simp only [hn] at h
        split at h
        · simp at h
        · exact ih _ _ h
    · simp at h

theorem lexemiter_walk_panic (li : lexemiter) (e : Err) (h : li.walk = .panic e) :
    e = .invalidCode := by
  unfold lexemiter.walk at h
  split at h
  · simp at h
  · split at h
    · simp at h
    · exact walkloop_panic _ _ _ h

theorem turn_panic (emu : Emu) (c : compiler) (w : List Char) (e : Err)
    (h : c.turn emu w = .panic e) : e.listed = true := by
  cases hd : decode w with
  | fuel => exact absurd hd (decode_ne_fuel w)
  | panic e1 =>
    simp only [compiler.turn, hd, Result.bind_panic, Result.panic.injEq] at h
    subst h
    rw [decode_panic w e1 hd]
    rfl
  | ok t =>
    rcases decode_cases w t hd with rfl | rfl | rfl | rfl
    · rw [turn_of_instruction emu c w hd] at h
      simp only [compiler.compileinstr] at h
      cases hl : (strmap emu).lookup (ToLower w) with
      | none =>
        simp only [hl, Result.bind_panic, Result.panic.injEq] at h
        subst h; rfl
      | some v => simp [hl] at h
    · rw [turn_of_integer emu c w hd] at h
      simp only [compiler.compileint] at h
      cases hl : ParseInt w with
      | none =>
        simp only [hl, Result.bind_panic, Result.panic.injEq] at h
        subst h; rfl
      | some v => simp [hl] at h
    · rw [turn_of_label emu c w hd] at h
      cases hl : c.labels.lookup w.dropLast with
      | none => simp [hl] at h
      | some v =>
        simp only [hl, Result.panic.injEq] at h
        subst h; rfl
    · rw [turn_of_labelref emu c w hd] at h
      cases hl : c.labels.lookup w.tail with
      | some v => simp [hl] at h
      | none =>
        simp only [hl, Result.panic.injEq] at h
        subst h; rfl

theorem loop_panic (emu : Emu) : ∀ (k : Nat) (c : compiler) (li : lexemiter) (buf : List Nat)
    (e : Err), compiler.loop emu k c li buf = .panic e → e.listed = true := by
  intro k
  induction k with
  | zero => intro c li buf e h; simp [compiler.loop] at h
  | succ k ih =>
    intro c li buf e h
    by_cases hn : li.hasnext = true
    · rw [loop_step emu k c li buf hn] at h
      cases hd : decode li.buf with
      | fuel => simp [hd] at h
      | panic e1 =>
        simp only [hd, Result.bind_panic, Result.panic.injEq] at h
        subst h
        rw [decode_panic _ e1 hd]
        rfl
      | ok t =>
        simp only [hd, Result.bind_ok] at h
        cases hw : li.walk with
        | fuel => simp [hw] at h
        | panic e1 =>
          simp only [hw, Result.bind_panic, Result.panic.injEq] at h
          subst h
          rw [lexemiter_walk_panic li e1 hw]
          rfl
        | ok li1 =>
          simp only [hw, Result.bind_ok] at h
          cases hs : c.switch emu { val := li.buf, typ := t } with
          | fuel => simp [hs] at h
          | panic e1 =>
            simp only [hs, Result.bind_panic, Result.panic.injEq] at h
            subst h
            exact turn_panic emu c li.buf e1 (by simp [compiler.turn, hd, hs])
          | ok p =>
            simp only [hs, Result.bind_ok] at h
            exact ih _ _ _ _ h
    · have hn1 : li.hasnext = false := by simpa using hn
      rw [loop_closed emu k c li buf hn1] at h
      simp at h

theorem compile_panic_listed (emu : Emu) (c : compiler) (e : Err)
    (h : c.compile emu = .panic e) : e.listed = true := by
  unfold compiler.compile newlexemiter at h
  rw [newruneiter_eq] at h
  simp only [Result.bind_ok] at h
  cases hw : lexemiter.walk
      { runeiter := riOf c.inp, opened := false, closed := false, exhausted := false,
        buf := [] } with
  | fuel => simp [hw] at h
  | panic e1 =>
    simp only [hw, Result.bind_panic, Result.panic.injEq] at h
    subst h
    rw [lexemiter_walk_panic _ e1 hw]
    rfl
  | ok li =>
    simp only [hw, Result.bind_ok] at h
    exact loop_panic emu _ _ _ _ _ h

/-- C20.  No out-of-range access.  On every word `decode` returns a kind or
panics with the decode error; on every input `Compile` returns or panics with
one of the errors of the compiler (decode error, unknown mnemonic, integer
parse, duplicate label, undefined label), never with an index or a slice out
of range.  The empty word is an Integer, and the words that reach the label
encoders have at least two code points. -/
theorem C20_no_out_of_range (emu : Emu) :
    (∀ w : List Char, (∃ t, decode w = .ok t) ∨ decode w = .panic .unknownFormat) ∧
    (∀ inp : List Char, (∃ out, Compile emu inp = .ok out) ∨
      ∃ e, Compile emu inp = .panic e ∧ e.listed = true) ∧
    decode [] = .ok _INTEGER ∧
    (∀ w : List Char, decode w = .ok _LABEL → 2 ≤ w.length) ∧
    (∀ w : List Char, decode w = .ok _LABELREF → 2 ≤ w.length) := by
  refine ⟨decode_ok_or_unknownFormat, ?_, decode_nil, length_of_decode_label,
    length_of_decode_labelref⟩
  intro inp
  rw [Compile_eq]
  cases h : compiler.compile emu { inp := inp, labels := [], ino := 1 } with
  | fuel => exact absurd h (compile_ne_fuel emu _)
  | panic e => exact Or.inr ⟨e, by simp [Result.map], compile_panic_listed emu _ e h⟩
  | ok p => exact Or.inl ⟨p.1, by simp [Result.map]⟩

/-- C20 at the label words `"a:"` and `"&a"`. -/
theorem C20_witness : 2 ≤ "a:".toList.length ∧ 2 ≤ "&a".toList.length :=
  ⟨(C20_no_out_of_range emu0).2.2.2.1 "a:".toList (by decide),
    (C20_no_out_of_range emu0).2.2.2.2 "&a".toList (by decide)⟩

/-! ## Empty tokens -/

theorem endsWithBreakpoint_cons (x : Char) (xs : List Char) :
    endsWithBreakpoint (x :: xs) ↔
      (xs = [] ∧ runein x breakpoints = true) ∨ endsWithBreakpoint xs := by
  cases xs with
  | nil => simp [endsWithBreakpoint]
  | cons y ys => simp [endsWithBreakpoint, List.getLast?_cons_cons]

theorem hasAdjacentBreakpoints_cons (x : Char) (xs : List Char) :
    hasAdjacentBreakpoints (x :: xs) ↔
      (runein x breakpoints = true ∧ beginsWithBreakpoint xs) ∨ hasAdjacentBreakpoints xs := by
  constructor
  · rintro ⟨pre, c, d, post, h1, h2, h3⟩
    cases pre with
    | nil =>
      simp only [List.nil_append, List.cons.injEq] at h1
      obtain ⟨rfl, rfl⟩ := h1
      exact Or.inl ⟨h2, d, by simp, h3⟩
    | cons p pre =>
      simp only [List.cons_append, List.cons.injEq] at h1
      obtain ⟨rfl, rfl⟩ := h1
      exact Or.inr ⟨pre, c, d, post, rfl, h2, h3⟩
  · rintro (⟨h2, d, h4, h3⟩ | ⟨pre, c, d, post, h1, h2, h3⟩)
    · cases xs with
      | nil => simp at h4
      | cons y ys =>
        simp only [List.head?_cons, Option.some.injEq] at h4
        subst h4
        exact ⟨[], x, y, ys, rfl, h2, h3⟩
    · exact ⟨x :: pre, c, d, post, by simp [h1], h2, h3⟩

/-- Where the empty tokens of an input come from. -/
theorem nil_mem_tokens (l : List Char) :
    ([] ∈ (tokens l).tail ↔ endsWithBreakpoint l ∨ hasAdjacentBreakpoints l) ∧
    ([] ∈ tokens l ↔
      l = [] ∨ beginsWithBreakpoint l ∨ endsWithBreakpoint l ∨ hasAdjacentBreakpoints l) := by
  induction l with
  | nil =>
    constructor
    · simp [tokens, endsWithBreakpoint, hasAdjacentBreakpoints]
    · simp [tokens]
  | cons x xs ih =>
    obtain ⟨ihA, ihB⟩ := ih
    have hhead : beginsWithBreakpoint (x :: xs) ↔ runein x breakpoints = true := by
      simp [beginsWithBreakpoint]
    by_cases hx : runein x breakpoints = true
    · have ht : tokens (x :: xs) = [] :: tokens xs := by simp [tokens, hx]
      constructor
      · rw [ht, List.tail_cons, ihB, endsWithBreakpoint_cons, hasAdjacentBreakpoints_cons]
        simp only [hx, and_true, true_and]
        tauto
      · rw [ht]
        simp only [List.mem_cons, true_or, true_iff]
        exact Or.inr (Or.inl (hhead.mpr hx))
    · have hx1 : runein x breakpoints = false := by simpa using hx
      have ht := tokens_cons_of_not_bp x xs hx1
      constructor
      · rw [ht, List.tail_cons, ihA, endsWithBreakpoint_cons, hasAdjacentBreakpoints_cons]
        simp only [hx1, Bool.false_eq_true, and_false, false_and, false_or]
      · rw [ht]
        simp only [List.mem_cons, ihA, endsWithBreakpoint_cons,
          hasAdjacentBreakpoints_cons, hhead, hx1, Bool.false_eq_true, and_false, false_and,
          false_or]
        constructor
        · rintro (h | h)
          · simp at h
          · exact Or.inr h
        · rintro (h | h)
          · simp at h
          · exact Or.inr h

theorem empty_token_panics (emu : Emu) (inp : List Char) (h : [] ∈ tokens inp) :
    ∃ e, Compile emu inp = .panic e := by
  obtain ⟨k, hk⟩ := List.getElem?_of_mem h
  obtain ⟨hsplit, -⟩ := split_at (tokens inp) k [] hk
  apply Compile_panic_of_turn emu inp _ _ [] hsplit
  intro out c1 _
  exact ⟨.parseInt, by rw [turn_of_integer emu c1 [] decode_nil, compileint_nil]; rfl⟩

/-- C19.  Empty tokens are fatal.  The empty word is classified as Integer
and its integer encoding panics, so `Compile` panics on every input that has
an empty token; the inputs with an empty token are the empty input, the inputs
that begin or end with a space or newline, and the inputs with two adjacent
space or newline characters.  So `Compile` returns only if the input is
non-empty and every segment between breakpoints is non-empty. -/
theorem C19_empty_tokens_fatal (emu : Emu) :
    decode [] = .ok _INTEGER ∧
    (∀ c : compiler, c.compileint [] = .panic .parseInt) ∧
    (∀ inp : List Char, [] ∈ tokens inp → ∃ e, Compile emu inp = .panic e) ∧
    (∀ inp : List Char, [] ∈ tokens inp ↔
      (inp = [] ∨ beginsWithBreakpoint inp ∨ endsWithBreakpoint inp ∨
        hasAdjacentBreakpoints inp)) ∧
    (∀ (inp : List Char) (out : List Nat), Compile emu inp = .ok out →
      inp ≠ [] ∧ ∀ t ∈ tokens inp, t ≠ []) := by
  refine ⟨decode_nil, compileint_nil, empty_token_panics emu, fun inp => (nil_mem_tokens inp).2,
    ?_⟩
  intro inp out h
  have hno : [] ∉ tokens inp := by
    intro hm
    obtain ⟨e, he⟩ := empty_token_panics emu inp hm
    rw [he] at h
    simp at h
  constructor
  · intro hnil
    apply hno
    rw [hnil]
    simp [tokens]
  · intro t ht hnil
    rw [hnil] at ht
    exact hno ht

/-- C19 at the input `"add\n"`, a program text with a trailing newline. -/
theorem C19_witness :
    (∃ e, Compile emu0 "add\n".toList = .panic e) ∧
      ([] ∈ tokens "add\n".toList ↔
        ("add\n".toList = [] ∨ beginsWithBreakpoint "add\n".toList ∨
          endsWithBreakpoint "add\n".toList ∨ hasAdjacentBreakpoints "add\n".toList)) :=
  ⟨(C19_empty_tokens_fatal emu0).2.2.1 "add\n".toList (by decide),
    (C19_empty_tokens_fatal emu0).2.2.2.1 "add\n".toList⟩

/-! ## The label table across a compile -/

/-- A `compile` that returns, from any state, is the run over the tokens of
the input. -/
theorem compile_ok_run (emu : Emu) (c cf : compiler) (out : List Nat)
    (h : c.compile emu = .ok (out, cf)) :
    compiler.run emu c (tokens c.inp) = .ok (out, cf) := by
  have hrep : ReplacementChar ∉ c.inp := by
    intro hm
    obtain ⟨e, he⟩ := compile_panic_of_replacement emu c hm
    rw [he] at h
    simp at h
  rw [← compile_eq_run emu c hrep]
  exact h

theorem labeldefs_eq_nil (ws : List (List Char)) (h : ∀ t ∈ ws, decode t ≠ .ok _LABEL) :
    ∀ ino : Int, labeldefs ino ws = [] := by
  induction ws with
  | nil => intro ino; rfl
  | cons w ws ih =>
    intro ino
    simp only [labeldefs, h w (by simp), if_false]
    exact ih (fun t ht => h t (List.mem_cons_of_mem _ ht)) _

/-- In a run that returns, the name of a label definition is not in the table
the run starts from. -/
theorem run_label_fresh (emu : Emu) (c cf : compiler) (ws : List (List Char)) (out : List Nat)
    (h : compiler.run emu c ws = .ok (out, cf)) (t : List Char) (ht : t ∈ ws)
    (hd : decode t = .ok _LABEL) : c.labels.lookup t.dropLast = none := by
  obtain ⟨i, hi⟩ := List.getElem?_of_mem ht
  obtain ⟨ci, ci1, a, -, h2, -, hlab⟩ := run_at emu c cf ws out h i t hi
  rw [turn_of_label emu ci t hd] at h2
  cases hl : ci.labels.lookup t.dropLast with
  | some v => simp [hl] at h2
  | none =>
    rw [hlab, List.lookup_append] at hl
    cases h3 : c.labels.lookup t.dropLast with
    | none => rfl
    | some v =>
      rw [h3] at hl
      cases h4 : (labeldefs c.ino (List.take i ws)).lookup t.dropLast <;> simp [h4] at hl

/-- C17.  Label table frame.  From every initial compiler state and on every
input on which `compile` returns: every key of the initial label table maps
to the same address afterwards; the keys afterwards are the initial keys and
the names of the label-definition tokens of the input, which are not among
the initial keys; and when the input has no label-definition token the table
is unchanged and every label reference emits the address stored for its
name. -/
theorem C17_label_table_frame (emu : Emu) (c cf : compiler) (out : List Nat)
    (h : c.compile emu = .ok (out, cf)) :
    (∀ (k : List Char) (v : Nat), c.labels.lookup k = some v → cf.labels.lookup k = some v) ∧
    (∀ k : List Char, (∃ v, cf.labels.lookup k = some v) ↔
      ((∃ v, c.labels.lookup k = some v) ∨
        ∃ t ∈ tokens c.inp, decode t = .ok _LABEL ∧ t.dropLast = k)) ∧
    (∀ t ∈ tokens c.inp, decode t = .ok _LABEL → c.labels.lookup t.dropLast = none) ∧
    ((∀ t ∈ tokens c.inp, decode t ≠ .ok _LABEL) →
      cf.labels = c.labels ∧
      ∀ (i : Nat) (w : List Char), (tokens c.inp)[i]? = some w → decode w = .ok _LABELREF →
        ∃ v, c.labels.lookup w.tail = some v ∧ out[i]? = some v) := by
  have hrun := compile_ok_run emu c cf out h
  obtain ⟨-, -, -, hlab⟩ := run_ok_state emu _ _ _ _ hrun
  have hfresh := run_label_fresh emu c cf (tokens c.inp) out hrun
  have hnew : ∀ (k : List Char) (v : Nat), c.labels.lookup k = some v →
      (labeldefs c.ino (tokens c.inp)).lookup k = none := by
    intro k v hk
    apply lookup_eq_none_of_not_mem
    intro v1 hv1
    rw [mem_labeldefs] at hv1
    obtain ⟨j, t, h1, h2, h3, -⟩ := hv1
    have := hfresh t (List.getElem?_mem h1) h2
    rw [h3, hk] at this
    simp at this
  refine ⟨?_, ?_, hfresh, ?_⟩
  · intro k v hk
    rw [hlab, List.lookup_append, hnew k v hk, hk]
    rfl
  · intro k
    rw [hlab, List.lookup_append]
    constructor
    · rintro ⟨v, hv⟩
      cases h1 : (labeldefs c.ino (tokens c.inp)).lookup k with
      | none =>
        rw [h1] at hv
        exact Or.inl ⟨v, by simpa using hv⟩
      | some v1 =>
        have hm := mem_of_lookup _ _ _ h1
        rw [mem_labeldefs] at hm
        obtain ⟨j, t, g1, g2, g3, -⟩ := hm
        exact Or.inr ⟨t, List.getElem?_mem g1, g2, g3⟩
    · rintro (⟨v, hv⟩ | ⟨t, ht, hd, hk⟩)
      · exact ⟨v, by rw [hnew k v hv, hv]; rfl⟩
      · obtain ⟨j, hj⟩ := List.getElem?_of_mem ht
        have hm : (k, ((c.ino + (j : Int)) % 4294967296).toNat) ∈
            labeldefs c.ino (tokens c.inp) := by
          rw [mem_labeldefs]
          exact ⟨j, t, hj, hd, hk, rfl⟩
        cases h1 : (labeldefs c.ino (tokens c.inp)).lookup k with
        | none => exact absurd h1 (lookup_ne_none_of_mem _ _ _ hm)
        | some v1 => exact ⟨v1, rfl⟩
  · intro hnolab
    constructor
    · rw [hlab, labeldefs_eq_nil _ hnolab]
      rfl
    · intro i w hi href
      obtain ⟨ci, ci1, a, -, h2, h3, hl⟩ := run_at emu c cf _ out hrun i w hi
      rw [labeldefs_eq_nil _ (fun t ht => hnolab t (List.mem_of_mem_take ht))] at hl
      simp only [List.nil_append] at hl
      rw [turn_of_labelref emu ci w href, hl] at h2
      cases h4 : c.labels.lookup w.tail with
      | none => simp [h4] at h2
      | some v =>
        simp only [h4, Result.ok.injEq, Prod.mk.injEq] at h2
        exact ⟨v, rfl, by rw [h3, h2.1]⟩

/-- C17 at the table `{a:123, b:456, c:789, d:101112}` and the input
`"&a &b &c &d"`, which compiles to `[123, 456, 789, 101112]`. -/
theorem C17_witness :
    (∀ (k : List Char) (v : Nat),
      [(['a'], 123), (['b'], 456), (['c'], 789), (['d'], 101112)].lookup k = some v →
      [(['a'], 123), (['b'], 456), (['c'], 789), (['d'], 101112)].lookup k = some v) ∧
    (∀ (i : Nat) (w : List Char), (tokens "&a &b &c &d".toList)[i]? = some w →
      decode w = .ok _LABELREF →
      ∃ v, [(['a'], 123), (['b'], 456), (['c'], 789), (['d'], 101112)].lookup w.tail = some v ∧
        [123, 456, 789, 101112][i]? = some v) :=
  ⟨(C17_label_table_frame emu0
      { inp := "&a &b &c &d".toList,
        labels := [(['a'], 123), (['b'], 456), (['c'], 789), (['d'], 101112)], ino := 1 }
      { inp := "&a &b &c &d".toList,
        labels := [(['a'], 123), (['b'], 456), (['c'], 789), (['d'], 101112)], ino := 5 }
      [123, 456, 789, 101112] (by decide)).1,
   ((C17_label_table_frame emu0
      { inp := "&a &b &c &d".toList,
        labels := [(['a'], 123), (['b'], 456), (['c'], 789), (['d'], 101112)], ino := 1 }
      { inp := "&a &b &c &d".toList,
        labels := [(['a'], 123), (['b'], 456), (['c'], 789), (['d'], 101112)], ino := 5 }
      [123, 456, 789, 101112] (by decide)).2.2.2 (by decide)).2⟩

/-! ## The code-point cursor -/

theorem drain_riOf (l : List Char) : ∀ k : Nat, l.length + 1 ≤ k → ReplacementChar ∉ l →
    (riOf l).drain k = .ok (l, riOf []) := by
  induction l with
  | nil =>
    intro k hk _
    obtain ⟨k, rfl⟩ : ∃ j, k = j + 1 := ⟨k - 1, by omega⟩
    simp [runeiter.drain, riOf_hasnext]
  | cons c cs ih =>
    intro k hk hrep
    obtain ⟨k, rfl⟩ : ∃ j, k = j + 1 := ⟨k - 1, by omega⟩
    have hc : ¬ c = ReplacementChar := fun h => hrep (by simp [h])
    have hcs : ReplacementChar ∉ cs := fun h => hrep (List.mem_cons_of_mem _ h)
    simp only [runeiter.drain, riOf_hasnext, riOf_next, hc, false_and, if_false,
      Result.bind_ok, List.isEmpty_cons, Bool.not_false, if_true]
    rw [ih k (by simpa using hk) hcs]
    rfl

/-- C16 as amended.  Code-point cursor: on an open, non-closed cursor whose
buffered code point is valid (not `U+FFFD`) and whose stream still has a valid
code point, `next()` returns the buffered code point and leaves the following
code point of the stream in the buffer; for every input of valid code points,
calling `next()` while `hasnext()` is true yields exactly the code points of
the input, each once, in order, and `hasnext()` is false right after the last
one (and from the start for the empty input). -/
theorem C16_code_point_cursor :
    (∀ (ri : runeiter) (c : Char) (rest : List Char), ri.opened = true → ri.closed = false →
      ri.inp = c :: rest → ri.n ≠ ReplacementChar → c ≠ ReplacementChar →
      ri.next = .ok (ri.n, { ri with inp := rest, n := c })) ∧
    (∀ inp : List Char, ReplacementChar ∉ inp →
      ∃ ri rf, newruneiter inp = .ok ri ∧ ri.drain (inp.length + 1) = .ok (inp, rf) ∧
        rf.hasnext = false ∧ (inp = [] → ri.hasnext = false)) := by
  constructor
  · intro ri c rest _ hcl hinp hn _
    simp [runeiter.next, runeiter.walk, hcl, hinp, hn]
  · intro inp hrep
    refine ⟨riOf inp, riOf [], newruneiter_eq inp, drain_riOf inp _ (le_refl _) hrep, rfl, ?_⟩
    intro h
    rw [h]
    rfl

/-- C16 as amended, at the cursor with `a` buffered over the stream `"b"` and
at the input `"ab"`. -/
theorem C16_witness :
    runeiter.next { inp := ['b'], opened := true, closed := false, n := 'a' } =
        .ok ('a', { inp := [], opened := true, closed := false, n := 'b' }) ∧
      ∃ ri rf, newruneiter ['a', 'b'] = .ok ri ∧ ri.drain (['a', 'b'].length + 1)
          = .ok (['a', 'b'], rf) ∧
        rf.hasnext = false ∧ (['a', 'b'] = [] → ri.hasnext = false) :=
  ⟨C16_code_point_cursor.1 { inp := ['b'], opened := true, closed := false, n := 'a' } 'b' []
      rfl rfl rfl (by decide) (by decide),
    C16_code_point_cursor.2 ['a', 'b'] (by decide)⟩

/-- C16 as stated fails.  The cursor that `newruneiter` builds over the code
points `U+FFFD`, `b` is open and not closed and its stream still has the valid
code point `b`, yet `next()` panics instead of returning the buffered code
point. -/
theorem C16_counterexample :
    newruneiter [ReplacementChar, 'b'] =
        .ok { inp := ['b'], opened := true, closed := false, n := ReplacementChar } ∧
      'b' ≠ ReplacementChar ∧
      runeiter.next { inp := ['b'], opened := true, closed := false, n := ReplacementChar } =
        .panic .invalidCode := by
  decide

/-! ## The token cursor -/

theorem rem_riOf (l : List Char) : (riOf l).rem = l := by
  cases l <;> simp [riOf, runeiter.rem, runeiter.hasnext]

theorem riOf_rem (ri : runeiter) (h : ri.hasnext = true) : ri = riOf ri.rem := by
  obtain ⟨inp, o, cl, n⟩ := ri
  simp only [runeiter.hasnext, Bool.and_eq_true, Bool.not_eq_true'] at h
  obtain ⟨rfl, rfl⟩ := h
  simp [runeiter.rem, runeiter.hasnext, riOf]

/-- With no `U+FFFD` in the stream, `scan` completes the buffer with the
longest prefix without breakpoint and leaves what follows the breakpoint. -/
theorem scan_takeWhile (l : List Char) : ∀ b : List Char, ReplacementChar ∉ l →
    scan b l = .ok (b ++ l.takeWhile (fun c => !runein c breakpoints),
      match l.dropWhile (fun c => !runein c breakpoints) with
      | [] => none
      | _ :: r => some r) := by
  induction l with
  | nil => intro b _; simp [scan]
  | cons c cs ih =>
    intro b h
    have hc : ¬ c = ReplacementChar := fun hc => h (by simp [hc])
    have hcs : ReplacementChar ∉ cs := fun hm => h (List.mem_cons_of_mem _ hm)
    simp only [scan, hc, false_and, if_false]
    by_cases hbp : runein c breakpoints = true
    · simp [hbp, List.takeWhile_cons, List.dropWhile_cons]
    · have hbp1 : runein c breakpoints = false := by simpa using hbp
      simp only [hbp1, Bool.false_eq_true, if_false, ih (b ++ [c]) hcs, List.takeWhile_cons,
        List.dropWhile_cons, Bool.not_false, if_true]
      simp

theorem takeWhile_longest (f : Char → Bool) (p : List Char) : ∀ l : List Char, p <+: l →
    (∀ c ∈ p, f c = true) → p.length ≤ (l.takeWhile f).length := by
  induction p with
  | nil => intro l _ _; simp
  | cons a p ih =>
    intro l hpre hall
    cases l with
    | nil => simp at hpre
    | cons x xs =>
      obtain ⟨rfl, hpre1⟩ := List.cons_prefix_cons.mp hpre
      have ha : f a = true := hall a (by simp)
      simp only [List.takeWhile_cons, ha, if_true, List.length_cons]
      have := ih xs hpre1 (fun c hc => hall c (List.mem_cons_of_mem _ hc))
      omega

/-- One `walk()` of a token cursor that is neither closed nor exhausted, over
code points without `U+FFFD`. -/
theorem walk_spec (li : lexemiter) (hcl : li.closed = false) (hex : li.exhausted = false)
    (hrep : ReplacementChar ∉ li.runeiter.rem) :
    ∃ li1, li.walk = .ok li1 ∧
      li1.buf = li.runeiter.rem.takeWhile (fun c => !runein c breakpoints) ∧
      li1.runeiter.rem = (li.runeiter.rem.dropWhile (fun c => !runein c breakpoints)).drop 1 := by
  obtain ⟨ri, o, cl, ex, buf⟩ := li
  simp only at hcl hex hrep
  subst hcl hex
  by_cases hn : ri.hasnext = true
  · have hri := riOf_rem ri hn
    generalize ri.rem = l at hri hrep
    subst hri
    have hk : l.length + 1 ≤ (riOf l).inp.length + 2 := by
      rw [riOf_inp_length]; omega
    simp only [lexemiter.walk, Bool.false_eq_true, if_false]
    rw [walkloop_eq l _ [] o false false hk, scan_takeWhile l [] hrep]
    simp only [Result.bind_ok, List.nil_append, rem_riOf]
    cases hd : l.dropWhile (fun c => !runein c breakpoints) with
    | nil => exact ⟨_, rfl, rfl, by simp [rem_riOf]⟩
    | cons x r => exact ⟨_, rfl, rfl, by simp [rem_riOf]⟩
  · have hn1 : ri.hasnext = false := by simpa using hn
    have hrem : ri.rem = [] := by simp [runeiter.rem, hn1]
    refine ⟨{ runeiter := ri, opened := o, closed := false, exhausted := true, buf := [] },
      ?_, ?_, ?_⟩
    · simp [lexemiter.walk, lexemiter.walkloop, hn1]
    · simp [hrem]
    · simp [hrem]

theorem drain_liOf : ∀ (n : Nat) (r : Option (List Char)), restLen r ≤ n →
    ∀ (k : Nat) (w : List Char), n + 2 ≤ k → ¬ restRep r →
      lexemiter.drain k (liOf w r) = .ok (w :: restToks r) := by
  intro n
  induction n with
  | zero =>
    intro r hr k w hk _
    cases r with
    | some l => simp [restLen] at hr
    | none =>
      obtain ⟨k, rfl⟩ : ∃ j, k = j + 2 := ⟨k - 2, by omega⟩
      simp only [lexemiter.drain, liOf_hasnext, if_true, walk_liOf_none, Result.bind_ok,
        liOf_buf]
      simp [lexemiter.hasnext, restToks, liOf]
  | succ n ih =>
    intro r hr k w hk hno
    cases r with
    | none => exact ih none (by simp [restLen]) k w (by omega) hno
    | some l =>
      obtain ⟨k, rfl⟩ : ∃ j, k = j + 1 := ⟨k - 1, by omega⟩
      have hl : l.length ≤ n := by simpa [restLen] using hr
      obtain ⟨p, hp⟩ := scan_ok_of_no_replacement l [] hno
      obtain ⟨w1, r1⟩ := p
      obtain ⟨h1, h2, -, h4⟩ := scan_spec l w1 r1 hp
      simp only [lexemiter.drain, liOf_hasnext, if_true, walk_liOf_some, hp, Result.bind_ok,
        liOf_buf]
      rw [ih r1 (by omega) k w1 (by omega) (fun hr1 => hno (h4 hr1))]
      simp [restToks, h1]

theorem newlexemiter_riOf (l w : List Char) (r : Option (List Char))
    (hp : scan [] l = .ok (w, r)) : newlexemiter (riOf l) = .ok (liOf w r) := by
  unfold newlexemiter
  simp only [lexemiter.walk, Bool.false_eq_true, if_false]
  have hk : l.length + 1 ≤ (riOf l).inp.length + 2 := by
    rw [riOf_inp_length]; omega
  rw [walkloop_eq l _ [] false false false hk, hp]
  cases r <;> rfl

theorem delivered_eq_tokens (inp : List Char) (h : ReplacementChar ∉ inp) :
    delivered inp = .ok (tokens inp) := by
  obtain ⟨p, hp⟩ := scan_ok_of_no_replacement inp [] h
  obtain ⟨w, r⟩ := p
  obtain ⟨h1, h2, -, h4⟩ := scan_spec inp w r hp
  unfold delivered
  rw [newruneiter_eq]
  simp only [Result.bind_ok]
  rw [newlexemiter_riOf inp w r hp]
  simp only [Result.bind_ok]
  rw [drain_liOf inp.length r (by omega) _ w (le_refl _) (fun hr => h (h4 hr)), h1]

theorem tokens_eq_splitOnP (inp : List Char) :
    tokens inp = inp.splitOnP (fun c => runein c breakpoints) := by
  induction inp with
  | nil => rfl
  | cons c cs ih =>
    rw [List.splitOnP_cons, ← ih]
    by_cases h : runein c breakpoints = true
    · simp [tokens, h]
    · have h1 : runein c breakpoints = false := by simpa using h
      rw [tokens_cons_of_not_bp c cs h1]
      have := tokens_ne_nil cs
      cases hs : tokens cs with
      | nil => exact absurd hs this
      | cons w ws => simp [h1]

/-- C15 as amended.  Tokenizer step: for every token cursor that is neither
closed nor exhausted and whose remaining code points (the buffered value of
the code-point cursor followed by the rest of the stream) hold no `U+FFFD`,
`walk` sets the buffer to the longest prefix of the remaining code points that
contains no space or newline, consumes that prefix together with the single
breakpoint that follows it (if any), and places no breakpoint in the buffer;
with `a` buffered and `"bc ddd"` remaining the buffer becomes `"abc"`.  The
tokens that the cursor delivers over an input without `U+FFFD` are its
segments split at every space and newline, empty segments included. -/
theorem C15_tokenizer_step :
    (∀ li : lexemiter, li.closed = false → li.exhausted = false →
      ReplacementChar ∉ li.runeiter.rem →
      ∃ li1, li.walk = .ok li1 ∧
        li1.buf = li.runeiter.rem.takeWhile (fun c => !runein c breakpoints) ∧
        (∀ p : List Char, p <+: li.runeiter.rem → (∀ c ∈ p, runein c breakpoints = false) →
          p.length ≤ li1.buf.length) ∧
        li1.runeiter.rem =
          (li.runeiter.rem.dropWhile (fun c => !runein c breakpoints)).drop 1 ∧
        (∀ c ∈ li1.buf, runein c breakpoints = false)) ∧
    (∃ li1, lexemiter.walk
        { runeiter := { inp := "bc ddd".toList, opened := true, closed := false, n := 'a' },
          opened := true, closed := false, exhausted := false, buf := [] } = .ok li1 ∧
      li1.buf = "abc".toList) ∧
    (∀ inp : List Char, ReplacementChar ∉ inp →
      delivered inp = .ok (tokens inp) ∧
        tokens inp = inp.splitOnP (fun c => runein c breakpoints)) := by
  have hex : ∃ li1, lexemiter.walk
      { runeiter := { inp := "bc ddd".toList, opened := true, closed := false, n := 'a' },
        opened := true, closed := false, exhausted := false, buf := [] } = .ok li1 ∧
      li1.buf = "abc".toList := by
    refine ⟨lexemiter.mk (runeiter.mk "dd".toList true false 'd') true false false
      "abc".toList, ?_, ?_⟩ <;> decide
  refine ⟨?_, hex, fun inp h => ⟨delivered_eq_tokens inp h, tokens_eq_splitOnP inp⟩⟩
  intro li hcl hex hrep
  obtain ⟨li1, h1, h2, h3⟩ := walk_spec li hcl hex hrep
  refine ⟨li1, h1, h2, ?_, h3, ?_⟩
  · intro p hp hall
    rw [h2]
    exact takeWhile_longest _ p _ hp (fun c hc => by simp [hall c hc])
  · intro c hc
    rw [h2] at hc
    have := List.mem_takeWhile_imp hc
    simpa using this

/-- C15 as amended, at the cursor of the input `"abc ddd"` after
`newruneiter`, and at that input. -/
theorem C15_witness :
    (∃ li1, lexemiter.walk
        { runeiter := { inp := "bc ddd".toList, opened := true, closed := false, n := 'a' },
          opened := false, closed := false, exhausted := false, buf := [] } = .ok li1 ∧
      li1.buf = (runeiter.rem
          { inp := "bc ddd".toList, opened := true, closed := false, n := 'a' }).takeWhile
        (fun c => !runein c breakpoints)) ∧
    (delivered "abc ddd".toList = .ok (tokens "abc ddd".toList) ∧
      tokens "abc ddd".toList = "abc ddd".toList.splitOnP (fun c => runein c breakpoints)) :=
  ⟨(C15_tokenizer_step.1
      { runeiter := { inp := "bc ddd".toList, opened := true, closed := false, n := 'a' },
        opened := false, closed := false, exhausted := false, buf := [] }
      rfl rfl (by decide)).imp (fun _ h => ⟨h.1, h.2.1⟩),
    C15_tokenizer_step.2.2 "abc ddd".toList (by decide)⟩

/-- C15 as stated fails.  The token cursor over the code-point cursor with
`U+FFFD` buffered and `x` left in the stream is neither closed nor exhausted,
its remaining code points are `U+FFFD`, `x`, neither a breakpoint, and `walk`
panics instead of setting the buffer to them. -/
theorem C15_counterexample :
    runeiter.rem { inp := ['x'], opened := true, closed := false, n := ReplacementChar }
        = [ReplacementChar, 'x'] ∧
      runein ReplacementChar breakpoints = false ∧ runein 'x' breakpoints = false ∧
      lexemiter.walk
        { runeiter := { inp := ['x'], opened := true, closed := false, n := ReplacementChar },
          opened := true, closed := false, exhausted := false, buf := [] }
        = .panic .invalidCode := by
  decide

end SM
